import Mathlib

/-!
# Verification of deepsign.py (zorgiepoo/deepsign)

A shallow embedding of `deepsign.py`, the recursive bundle code-signing tool,
together with proofs of the specification claims about it.

## The filesystem model

The tool only ever observes the filesystem through `os.path.islink`,
`os.path.isdir`, `os.path.exists`, `os.access(..., X_OK)`, `os.listdir`,
`os.path.join`, `os.path.basename` and `os.path.splitext`.  We model a
filesystem subtree as an inductive tree `Entry`:

* `file exec sig` — a regular file; `exec` is the execute-permission bit for
  the current process; `sig` is ghost state standing for any signature bytes
  already present in the file (the traversal never reads it; claim C9 is the
  proof).
* `dir sig children` — a directory with a named, ordered child list (the
  order models the `os.listdir` enumeration order of that directory); `sig`
  again is ghost signature state (e.g. a `_CodeSignature` payload).
* `link target` — a symbolic link; the fully resolved target subtree is
  inlined (`none` for a broken link).  Inlining the target makes the model
  acyclic by construction, which is exactly the precondition under which the
  tool's fallback recursion terminates (claim C10).

Paths are lists of components; the trace records the normalized path passed
to each `codesign` invocation ("dir/./x" in the source is recorded as
"dir/x", which names the same filesystem object).

## The traversal

`codesign_bundle`, `codesign_files_in` and `codesign_versions` are mutually
recursive in the source.  They are embedded as one function `run` over a
`Call` tag, structurally recursive on a fuel parameter that is decremented
once per (mutually) recursive call; running out of fuel produces the
distinguished outcome `fuelOut`, so any theorem conditioned on an `ok`
outcome speaks only about runs the Python program actually completes.
`sys.exit(1)` after a failed `codesign` is the outcome `exit1`; an uncaught
`NotADirectoryError` from `os.listdir` on a non-directory is the outcome
`crashed`.  After a non-`ok` outcome every function returns its state
unchanged, which models the fact that the Python process has terminated.

Each `codesign` invocation is recorded as an event `(isBundleSign, path)`;
the Boolean is ghost instrumentation marking whether the invocation is the
final self-signature a `codesign_bundle` call emits for its own bundle path
(it does not influence control flow and the external signer does not see
it); it lets the ordering claims quantify over "nested bundle" invocations.
-/

namespace Deepsign

abbrev Name := String
abbrev Path := List Name

/-- A filesystem entry. See the module doc comment. -/
inductive Entry where
  | file (exec : Bool) (sig : Nat)
  | dir (sig : Nat) (children : List (Name × Entry))
  | link (target : Option Entry)

/-- Follow a (possibly chained) symbolic link to the real entry; `none` if
the chain is broken. Non-links resolve to themselves. -/
def resolve : Entry → Option Entry
  | Entry.link (some t) => resolve t
  | Entry.link none => none
  | e => some e

/-- `os.path.islink`: true iff the entry itself is a symlink (the final path
component is not followed). `none` is a nonexistent path. -/
def islink : Option Entry → Bool
  | some (Entry.link _) => true
  | _ => false

/-- `os.path.isdir`: follows symlinks. -/
def isdir : Option Entry → Bool
  | some e =>
    match resolve e with
    | some (Entry.dir _ _) => true
    | _ => false
  | none => false

/-- `os.path.exists`: follows symlinks; a broken link does not exist. -/
def pathExists : Option Entry → Bool
  | some e => (resolve e).isSome
  | none => false

/-- `os.access(path, os.X_OK)` for the current process: follows symlinks;
the execute bit of a file, and search permission (modelled as granted) for a
directory. -/
def accessX : Option Entry → Bool
  | some e =>
    match resolve e with
    | some (Entry.file ex _) => ex
    | some (Entry.dir _ _) => true
    | _ => false
  | none => false

/-- Find the child of a directory child-list with the given name. -/
def findChild (nm : Name) : List (Name × Entry) → Option Entry
  | [] => none
  | (m, c) :: rest => if m = nm then some c else findChild nm rest

/-- Look a relative path up inside an entry.  Intermediate components follow
symlinks (as the OS path walk does); the final entry is returned unresolved.
A "." component requires the entry so far to (resolve to) a directory and
stays there, matching `os.path.join(d, ".")`. -/
def lookup : Entry → List Name → Option Entry
  | e, [] => some e
  | e, nm :: rest =>
    match resolve e with
    | some (Entry.dir s ch) =>
      if nm = "." then lookup (Entry.dir s ch) rest
      else
        match findChild nm ch with
        | some c => lookup c rest
        | none => none
    | _ => none

/-- The existing, fully resolved entry at a relative path: `some` exactly
when `os.path.exists` holds for the joined path. -/
def entryAt (e : Entry) (q : List Name) : Option Entry :=
  (lookup e q).bind resolve

/-- `os.listdir`: the children of a directory (following a symlink to it);
`none` models the `NotADirectoryError` Python raises otherwise. -/
def listdir (e : Entry) : Option (List (Name × Entry)) :=
  match resolve e with
  | some (Entry.dir _ ch) => some ch
  | _ => none

/-- `os.path.splitext` on a single path component (CPython: the extension
starts at the last dot, unless every character before that dot is itself a
dot, in which case the extension is empty). -/
def splitext (s : List Char) : List Char × List Char :=
  let rev := s.reverse
  if ('.' ∈ s) then
    let afterLast := (rev.takeWhile (fun c => c ≠ '.')).reverse
    let beforeLast := ((rev.dropWhile (fun c => c ≠ '.')).drop 1).reverse
    if beforeLast.any (fun c => c ≠ '.') then (beforeLast, '.' :: afterLast)
    else (s, [])
  else (s, [])

/-- `len(os.path.splitext(filename)[1][1:])`, the length of the extension
with its leading dot stripped. -/
def extTailLen (nm : Name) : Nat :=
  ((splitext nm.toList).2.drop 1).length

/-- `executable_candidate(path)` from the source: not a symlink, not a
directory, and execute permission is granted.  The argument is the entry at
the path (`none` when the path does not exist). -/
def executable_candidate (oe : Option Entry) : Bool :=
  !islink oe && !isdir oe && accessX oe

/-- `bundle_candidate(path)` from the source: not a symlink, a directory,
and the base name (`nm`, the final path component) has a non-empty
extension after `os.path.splitext`. -/
def bundle_candidate (nm : Name) (oe : Option Entry) : Bool :=
  !islink oe && isdir oe && decide (0 < extTailLen nm)

/-- `CURRENT_DIRECTORY_PATH = "."` as a relative component list. -/
def CURRENT_DIRECTORY_PATH : List Name := ["."]

/-- `VALID_SIGNING_PATHS` from the source, in source order; the multi-level
entries like "Library/QuickLook" are component lists. -/
def VALID_SIGNING_PATHS : List (List Name) :=
  [["Frameworks"], ["PlugIns"], ["XPCServices"], ["Helpers"],
   ["Library", "QuickLook"], ["Library", "Automator"], ["Library", "Spotlight"],
   ["Library", "LoginItems"], ["Library", "LaunchServices"], ["MacOS"],
   CURRENT_DIRECTORY_PATH]

/-- Join a directory path with a relative location, normalizing away "."
(that is the path the OS resolves, and the one path-identity claims are
about). -/
def joinRel (p : Path) (loc : List Name) : Path :=
  p ++ loc.filter (fun nm => nm ≠ ".")

/-- How a run ends: `ok` — still running / completed; `exit1` — the
`sys.exit(1)` after a failed `codesign`; `crashed` — uncaught
`NotADirectoryError`; `fuelOut` — the embedding's fuel ran out (no Python
counterpart; theorems about completed runs exclude it by requiring `ok`). -/
inductive Outcome where
  | ok
  | exit1
  | crashed
  | fuelOut
deriving DecidableEq, Repr

/-- One `codesign -fs identity path` invocation: the Boolean is the ghost
"this is a bundle's own final self-signature" marker, the path is the
(normalized) path argument. -/
abbrev Ev := Bool × Path

/-- The observable state of a run: the signer invocations so far, in order,
and how the process stands. -/
structure SignState where
  trace : List Ev
  outcome : Outcome
deriving DecidableEq, Repr

/-- The run configuration: the external signer oracle (the exit status of
`codesign -fs identity path`), the signing identity, and the verbosity flag
(which only affects logging, which the spec places out of scope). -/
structure Ctx where
  signer : String → Path → Bool
  identity : String
  verbose : Bool

/-- `codesign_file(path, identity, verbose)`: invoke the signer, and
`sys.exit(1)` when it reports failure.  `isBundleSign` is the ghost marker
described in the module comment. -/
def codesign_file (ctx : Ctx) (isBundleSign : Bool) (path : Path) (st : SignState) :
    SignState :=
  if st.outcome ≠ Outcome.ok then st
  else
    let st' : SignState := { st with trace := st.trace ++ [(isBundleSign, path)] }
    if ctx.signer ctx.identity path then st' else { st' with outcome := Outcome.exit1 }

/-- The loop body of `codesign_versions`: each child of the `Versions`
directory that is not a symlink is handed to `codesign_files_in` (the
`recurse` continuation); symlink children are skipped. -/
def versionsLoop (recurse : Entry → Path → SignState → SignState) (p : Path) :
    List (Name × Entry) → SignState → SignState
  | [], st => st
  | (nm, c) :: rest, st =>
    if st.outcome ≠ Outcome.ok then st
    else
      versionsLoop recurse p rest
        (if islink (some c) then st else recurse c (p ++ [nm]) st)

/-- The accumulator of the scan phase of `codesign_files_in`: the collected
bundle list (with the entry alongside the path), the collected executable
list, and the run state (mutated by the fallback recursion). -/
abbrev ScanAcc := List (Path × Entry) × List Path × SignState

/-- The inner loop of `codesign_files_in` over the children of one signing
location: classify each child as bundle / executable / fallback-recursion
target / ignored.  `recurse` is `codesign_files_in` itself. -/
def scanChildren (recurse : Entry → Path → SignState → SignState)
    (loc : List Name) (locPath : Path) :
    List (Name × Entry) → ScanAcc → ScanAcc
  | [], acc => acc
  | (nm, c) :: rest, (bs, es, st) =>
    if st.outcome ≠ Outcome.ok then (bs, es, st)
    else
      let childPath := locPath ++ [nm]
      if bundle_candidate nm (some c) then
        scanChildren recurse loc locPath rest (bs ++ [(childPath, c)], es, st)
      else if executable_candidate (some c) then
        scanChildren recurse loc locPath rest (bs, es ++ [childPath], st)
      else if loc ≠ CURRENT_DIRECTORY_PATH ∧ isdir (some c) = true then
        scanChildren recurse loc locPath rest (bs, es, recurse c childPath st)
      else
        scanChildren recurse loc locPath rest (bs, es, st)

/-- The outer loop of `codesign_files_in` over `VALID_SIGNING_PATHS`: skip a
location that does not exist, crash (as `os.listdir` does) on one that
exists but is not a directory, and scan the children of the rest. -/
def scanLocations (recurse : Entry → Path → SignState → SignState)
    (e : Entry) (p : Path) : List (List Name) → ScanAcc → ScanAcc
  | [], acc => acc
  | loc :: rest, (bs, es, st) =>
    if st.outcome ≠ Outcome.ok then (bs, es, st)
    else
      let acc' : ScanAcc :=
        match entryAt e loc with
        | none => (bs, es, st)
        | some (Entry.dir _ ch) => scanChildren recurse loc (joinRel p loc) ch (bs, es, st)
        | some _ => (bs, es, { st with outcome := Outcome.crashed })
      scanLocations recurse e p rest acc'

/-- The first signing phase of `codesign_files_in`: `codesign_bundle` (the
`signB` continuation) on every collected bundle, in collection order. -/
def signBundles (signB : Path → Entry → SignState → SignState) :
    List (Path × Entry) → SignState → SignState
  | [], st => st
  | (q, c) :: rest, st => signBundles signB rest (signB q c st)

/-- The second signing phase of `codesign_files_in`: `codesign_file` on
every collected executable, in collection order. -/
def signExecutables (ctx : Ctx) : List Path → SignState → SignState
  | [], st => st
  | q :: rest, st => signExecutables ctx rest (codesign_file ctx false q st)

/-- Which of the three mutually recursive source functions is being run:
`bundle` is `codesign_bundle`, `filesIn` is `codesign_files_in`, `versions`
is `codesign_versions`; each carries the entry the path denotes and the
path itself. -/
inductive Call where
  | bundle (e : Entry) (p : Path)
  | filesIn (e : Entry) (p : Path)
  | versions (e : Entry) (p : Path)

/-- The mutual recursion of `codesign_bundle` / `codesign_files_in` /
`codesign_versions`, fuelled.  Each case is a direct transcription of the
corresponding Python function body; see the wrappers below for the
source-named entry points. -/
def run (ctx : Ctx) : Nat → Call → SignState → SignState
  | 0, _, st => if st.outcome = Outcome.ok then { st with outcome := Outcome.fuelOut } else st
  | n + 1, Call.filesIn e p, st =>
    if st.outcome ≠ Outcome.ok then st
    else
      let acc := scanLocations (fun c q s => run ctx n (Call.filesIn c q) s) e p
        VALID_SIGNING_PATHS ([], [], st)
      let st1 := signBundles (fun q c s => run ctx n (Call.bundle c q) s) acc.1 acc.2.2
      signExecutables ctx acc.2.1 st1
  | n + 1, Call.versions e p, st =>
    if st.outcome ≠ Outcome.ok then st
    else
      match listdir e with
      | some ch => versionsLoop (fun c q s => run ctx n (Call.filesIn c q) s) p ch st
      | none => { st with outcome := Outcome.crashed }
  | n + 1, Call.bundle e p, st =>
    if st.outcome ≠ Outcome.ok then st
    else
      let st' :=
        match entryAt e ["Contents"] with
        | some ce =>
          let st1 :=
            match entryAt ce ["Versions"] with
            | some ve => run ctx n (Call.versions ve (p ++ ["Contents", "Versions"])) st
            | none => st
          run ctx n (Call.filesIn ce (p ++ ["Contents"])) st1
        | none =>
          match entryAt e ["Versions"] with
          | some ve => run ctx n (Call.versions ve (p ++ ["Versions"])) st
          | none => run ctx n (Call.filesIn e p) st
      codesign_file ctx true p st'

/-- `codesign_bundle(bundle_path, identity, verbose)`. -/
def codesign_bundle (ctx : Ctx) (fuel : Nat) (e : Entry) (p : Path) (st : SignState) :
    SignState :=
  run ctx fuel (Call.bundle e p) st

/-- `codesign_files_in(directory_path, identity, verbose)`. -/
def codesign_files_in (ctx : Ctx) (fuel : Nat) (e : Entry) (p : Path) (st : SignState) :
    SignState :=
  run ctx fuel (Call.filesIn e p) st

/-- `codesign_versions(versions_path, identity)`. -/
def codesign_versions (ctx : Ctx) (fuel : Nat) (e : Entry) (p : Path) (st : SignState) :
    SignState :=
  run ctx fuel (Call.versions e p) st

/-- The `__main__` block after argument parsing: error exit when the path
does not exist, sign it as a plain file when it is an executable candidate,
sign it as a bundle when it is a bundle candidate, error exit otherwise.
`rootPath` is the supplied path (as components); `root` is the entry it
denotes (`none` when nothing is there). -/
def deepsign_main (ctx : Ctx) (fuel : Nat) (rootPath : Path) (root : Option Entry) :
    SignState :=
  let init : SignState := { trace := [], outcome := Outcome.ok }
  if pathExists root = false then { init with outcome := Outcome.exit1 }
  else if executable_candidate root then codesign_file ctx false rootPath init
  else if bundle_candidate (rootPath.getLastD "") root then
    match root with
    | some e => run ctx fuel (Call.bundle e rootPath) init
    | none => { init with outcome := Outcome.exit1 }
  else { init with outcome := Outcome.exit1 }

/-- The failure discipline relating a state to the state after running any
piece of the traversal with signer oracle `sg`: a dead (non-`ok`) state is
left untouched; the trace only grows; any failing invocation among the
appended events is the very last event appended and flips the outcome to
`exit1`; and a piece that ends `ok` started `ok` and made only successful
invocations. -/
def GoodRun (sg : Path → Bool) (st r : SignState) : Prop :=
  (st.outcome ≠ Outcome.ok → r = st) ∧
  ∃ new, r.trace = st.trace ++ new ∧
    (∀ t1 ev t2, new = t1 ++ ev :: t2 → sg ev.2 = false →
      t2 = [] ∧ r.outcome = Outcome.exit1) ∧
    (r.outcome = Outcome.ok → st.outcome = Outcome.ok ∧ ∀ ev ∈ new, sg ev.2 = true)

/-- The event's path lies strictly below `p` (it extends `p` by at least
one component). -/
def StrictBelow (p : Path) (ev : Ev) : Prop :=
  ∃ s, s ≠ [] ∧ ev.2 = p ++ s

/-- Running a piece of the traversal only appends events, all satisfying
`P`. -/
def TraceExt (P : Ev → Prop) (st r : SignState) : Prop :=
  ∃ new, r.trace = st.trace ++ new ∧ ∀ ev ∈ new, P ev

/-- The shape of a `codesign_bundle` run at path `p`: it appends events
strictly below `p` followed — always when the run completes `ok`, and at
most once otherwise — by the single self-signature invocation on `p`
itself. -/
def BundleShape (p : Path) (st r : SignState) : Prop :=
  ∃ inner fin, r.trace = st.trace ++ inner ++ fin ∧
    (∀ ev ∈ inner, StrictBelow p ev) ∧
    (fin = [] ∨ fin = [(true, p)]) ∧
    (r.outcome = Outcome.ok → fin = [(true, p)])

/-- The spec's phrase "its base name has a non-empty file-extension-like
suffix", stated directly: the name splits as `stem ++ "." ++ ext` with a
non-empty extension containing no further dot (so the split is at the last
dot), and with a stem that is not entirely dots (so the suffix is an
extension rather than the tail of a dotfile name such as ".bashrc"). -/
def HasExtension (nm : Name) : Prop :=
  ∃ stem ext, nm.toList = stem ++ '.' :: ext ∧ ext ≠ [] ∧ ('.' ∉ ext) ∧
    stem.any (fun c => c ≠ '.') = true

mutual

/-- Erase the ghost signature state from an entry, keeping every structural
observation (names, link structure, directory shape, permission bits)
intact.  Two entries with the same erasure are "the same filesystem state up
to existing signatures". -/
def stripSig : Entry → Entry
  | Entry.file ex _ => Entry.file ex 0
  | Entry.dir _ ch => Entry.dir 0 (stripSigList ch)
  | Entry.link none => Entry.link none
  | Entry.link (some t) => Entry.link (some (stripSig t))

/-- `stripSig` over a child list. -/
def stripSigList : List (Name × Entry) → List (Name × Entry)
  | [] => []
  | (nm, e) :: rest => (nm, stripSig e) :: stripSigList rest

end

/-- Signature erasure lifted to a collected-bundles list (the paths are
kept, the carried entries are erased). -/
def stripSigBundles (bs : List (Path × Entry)) : List (Path × Entry) :=
  bs.map (fun x => (x.1, stripSig x.2))

end Deepsign

namespace Deepsign

/-! ## The classifier: `splitext` and the two candidate predicates -/

theorem takeWhile_middle (p : Char → Bool) (l1 : List Char) (x : Char) (l2 : List Char)
    (h1 : ∀ a ∈ l1, p a = true) (h2 : p x = false) :
    (l1 ++ x :: l2).takeWhile p = l1 := by
  induction l1 with
  | nil => simp [List.takeWhile_cons, h2]
  | cons a rest ih =>
    have ha : p a = true := h1 a (List.mem_cons_self a rest)
    have hrest := ih (fun b hb => h1 b (List.mem_cons_of_mem a hb))
    simp [List.takeWhile_cons, ha, hrest]

theorem dropWhile_middle (p : Char → Bool) (l1 : List Char) (x : Char) (l2 : List Char)
    (h1 : ∀ a ∈ l1, p a = true) (h2 : p x = false) :
    (l1 ++ x :: l2).dropWhile p = x :: l2 := by
  induction l1 with
  | nil => simp [List.dropWhile_cons, h2]
  | cons a rest ih =>
    have ha : p a = true := h1 a (List.mem_cons_self a rest)
    have hrest := ih (fun b hb => h1 b (List.mem_cons_of_mem a hb))
    simp [List.dropWhile_cons, ha, hrest]

theorem dropWhile_head_false (p : Char → Bool) (l : List Char) (b : Char) (t : List Char)
    (h : l.dropWhile p = b :: t) : p b = false := by
  induction l with
  | nil => simp at h
  | cons a rest ih =>
    rw [List.dropWhile_cons] at h
    by_cases hpa : p a = true
    · rw [if_pos hpa] at h; exact ih h
    · rw [if_neg hpa] at h
      cases h
      cases hv : p b
      · rfl
      · exact absurd hv hpa

theorem splitext_of_decomp (stem ext : List Char) (hnd : ('.' ∉ ext))
    (hany : stem.any (fun c => c ≠ '.') = true) :
    splitext (stem ++ '.' :: ext) = (stem, '.' :: ext) := by
  have hmem : ('.' ∈ stem ++ '.' :: ext) :=
    List.mem_append_right stem (List.mem_cons_self _ _)
  have hrev : (stem ++ '.' :: ext).reverse = ext.reverse ++ '.' :: stem.reverse := by
    simp
  have hall : ∀ a ∈ ext.reverse, (fun c => decide (c ≠ '.')) a = true := by
    intro a ha
    have haa : a ∈ ext := List.mem_reverse.mp ha
    simp only [decide_eq_true_eq]
    intro hcontra
    exact hnd (hcontra ▸ haa)
  have htw : ((stem ++ '.' :: ext).reverse.takeWhile (fun c => c ≠ '.')) = ext.reverse := by
    rw [hrev]
    exact takeWhile_middle _ _ _ _ hall (by simp)
  have hdw : ((stem ++ '.' :: ext).reverse.dropWhile (fun c => c ≠ '.')) =
      '.' :: stem.reverse := by
    rw [hrev]
    exact dropWhile_middle _ _ _ _ hall (by simp)
  unfold splitext
  rw [if_pos hmem]
  simp only [htw, hdw, List.drop_succ_cons, List.drop_zero, List.reverse_reverse]
  rw [if_pos hany]

theorem splitext_not_mem (s : List Char) (hmem : ('.' ∉ s)) : splitext s = (s, []) := by
  unfold splitext
  rw [if_neg hmem]

theorem splitext_decomp_of_mem (s : List Char) (hmem : ('.' ∈ s)) :
    ∃ stem ext, s = stem ++ '.' :: ext ∧ ('.' ∉ ext) ∧
      (s.reverse.takeWhile (fun c => c ≠ '.')).reverse = ext ∧
      ((s.reverse.dropWhile (fun c => c ≠ '.')).drop 1).reverse = stem := by
  have hmemr : ('.' ∈ s.reverse) := List.mem_reverse.mpr hmem
  have hsplit := List.takeWhile_append_dropWhile (fun c => decide (c ≠ '.')) s.reverse
  cases hdw : s.reverse.dropWhile (fun c => c ≠ '.') with
  | nil =>
    exfalso
    rw [hdw, List.append_nil] at hsplit
    have := List.mem_takeWhile_imp (hsplit ▸ hmemr)
    simp at this
  | cons b t =>
    have hb : b = '.' := by
      have := dropWhile_head_false _ _ _ _ hdw
      simpa using this
    subst hb
    refine ⟨t.reverse, (s.reverse.takeWhile (fun c => c ≠ '.')).reverse, ?_, ?_, rfl, by
      simp⟩
    · conv_lhs => rw [← s.reverse_reverse, ← hsplit, hdw]
      simp
    · intro hc
      have := List.mem_takeWhile_imp (List.mem_reverse.mp hc)
      simp at this

theorem extTailLen_pos_iff (nm : Name) : 0 < extTailLen nm ↔ HasExtension nm := by
  constructor
  · intro h
    by_cases hmem : ('.' ∈ nm.toList)
    · obtain ⟨stem, ext, hs, hnd, htw, hdw⟩ := splitext_decomp_of_mem nm.toList hmem
      by_cases hany : stem.any (fun c => c ≠ '.') = true
      · refine ⟨stem, ext, hs, ?_, hnd, hany⟩
        have := splitext_of_decomp stem ext hnd hany
        rw [← hs] at this
        unfold extTailLen at h
        rw [this] at h
        exact List.length_pos.mp (by simpa using h)
      · exfalso
        have hval : splitext nm.toList = (nm.toList, []) := by
          unfold splitext
          rw [if_pos hmem]
          simp only [htw, hdw]
          rw [if_neg hany]
        unfold extTailLen at h
        rw [hval] at h
        simp at h
    · exfalso
      unfold extTailLen at h
      rw [splitext_not_mem nm.toList hmem] at h
      simp at h
  · rintro ⟨stem, ext, hs, hne, hnd, hany⟩
    unfold extTailLen
    rw [hs, splitext_of_decomp stem ext hnd hany]
    simpa using List.length_pos.mpr hne

/-- C7: `bundle_candidate(path)` is true precisely when the path is not a
symbolic link, is a directory, and its base name has a non-empty
file-extension-like suffix; and it is a total Boolean predicate that
evaluates to false on a non-existent path instead of throwing. -/
theorem bundle_candidate_spec :
    (∀ nm oe, bundle_candidate nm oe = true ↔
      (islink oe = false ∧ isdir oe = true ∧ HasExtension nm)) ∧
    (∀ nm, bundle_candidate nm none = false) := by
  constructor
  · intro nm oe
    unfold bundle_candidate
    rw [Bool.and_eq_true, Bool.and_eq_true, Bool.not_eq_true', decide_eq_true_eq,
      extTailLen_pos_iff]
    constructor
    · rintro ⟨⟨h1, h2⟩, h3⟩; exact ⟨h1, h2, h3⟩
    · rintro ⟨h1, h2, h3⟩; exact ⟨⟨h1, h2⟩, h3⟩
  · intro nm
    rfl

/-- C7 witness: the predicates of `bundle_candidate_spec` evaluated at a
concrete extension-bearing directory. -/
theorem bundle_candidate_spec_witness :
    bundle_candidate "A.app" (some (Entry.dir 0 [])) = true :=
  (bundle_candidate_spec.1 "A.app" (some (Entry.dir 0 []))).mpr
    ⟨rfl, rfl, ⟨['A'], ['a', 'p', 'p'], by decide, by decide, by decide, by decide⟩⟩

/-- C8: `executable_candidate(path)` is true precisely when the path is not
a symbolic link, not a directory, and execute permission is granted; in
particular a file with the execute bit cleared is rejected, and a
non-existent path evaluates to false instead of throwing. -/
theorem executable_candidate_spec :
    (∀ oe, executable_candidate oe = true ↔
      (islink oe = false ∧ isdir oe = false ∧ accessX oe = true)) ∧
    executable_candidate none = false ∧
    (∀ ex sig, executable_candidate (some (Entry.file ex sig)) = ex) := by
  refine ⟨?_, rfl, ?_⟩
  · intro oe
    unfold executable_candidate
    rw [Bool.and_eq_true, Bool.and_eq_true, Bool.not_eq_true', Bool.not_eq_true']
    constructor
    · rintro ⟨⟨h1, h2⟩, h3⟩; exact ⟨h1, h2, h3⟩
    · rintro ⟨h1, h2, h3⟩; exact ⟨⟨h1, h2⟩, h3⟩
  · intro ex sig
    cases ex <;> rfl

/-- C8 witness: `executable_candidate_spec` evaluated at a concrete
executable file and at the same file with the execute bit cleared. -/
theorem executable_candidate_spec_witness :
    executable_candidate (some (Entry.file true 0)) = true ∧
    executable_candidate (some (Entry.file false 0)) = false :=
  ⟨executable_candidate_spec.2.2 true 0, executable_candidate_spec.2.2 false 0⟩

/-! ## Basic run lemmas -/

/-- After `sys.exit(1)` (or a crash, or fuel exhaustion) nothing runs: the
traversal leaves a non-`ok` state untouched. -/
theorem run_stuck (ctx : Ctx) (n : Nat) (c : Call) (st : SignState)
    (h : st.outcome ≠ Outcome.ok) : run ctx n c st = st := by
  cases n with
  | zero => simp [run, h]
  | succ n => cases c <;> simp [run, h]

theorem codesign_file_stuck (ctx : Ctx) (b : Bool) (q : Path) (st : SignState)
    (h : st.outcome ≠ Outcome.ok) : codesign_file ctx b q st = st := by
  simp [codesign_file, h]

theorem foldl_stuck {α : Type} (f : α → SignState → SignState)
    (hf : ∀ x s, s.outcome ≠ Outcome.ok → f x s = s)
    (l : List α) (st : SignState) (h : st.outcome ≠ Outcome.ok) :
    l.foldl (fun s x => f x s) st = st := by
  induction l with
  | nil => rfl
  | cons x rest ih => simp only [List.foldl_cons, hf x st h]; exact ih

/-! ## C4: version directories -/

/-- The `codesign_versions` loop is exactly a fold of the recursive call
over the children that are not symbolic links, provided the continuation
leaves a dead state alone (as every traversal function does). -/
theorem versionsLoop_eq_filtered_fold
    (recurse : Entry → Path → SignState → SignState)
    (hstuck : ∀ c q s, s.outcome ≠ Outcome.ok → recurse c q s = s)
    (p : Path) (ch : List (Name × Entry)) (st : SignState) :
    versionsLoop recurse p ch st =
      (ch.filter (fun x => !islink (some x.2))).foldl
        (fun s x => recurse x.2 (p ++ [x.1]) s) st := by
  induction ch generalizing st with
  | nil => rfl
  | cons x rest ih =>
    obtain ⟨nm, c⟩ := x
    by_cases hok : st.outcome = Outcome.ok
    · rw [versionsLoop]
      rw [if_neg (by simp [hok])]
      cases hl : islink (some c) with
      | true => rw [if_pos rfl]; rw [List.filter_cons, if_neg (by simp [hl])]; exact ih st
      | false =>
        rw [if_neg (by simp)]
        rw [List.filter_cons, if_pos (by simp [hl])]
        rw [List.foldl_cons]
        exact ih (recurse c (p ++ [nm]) st)
    · rw [versionsLoop, if_pos hok]
      exact (@foldl_stuck (Name × Entry) (fun x s => recurse x.2 (p ++ [x.1]) s)
        (fun x s hs => hstuck x.2 (p ++ [x.1]) s hs)
        (List.filter (fun x => !islink (some x.2)) ((nm, c) :: rest)) st hok).symm

/-- C4: `codesign_versions` signs every non-symlink child of the versions
directory as an independent root, via `codesign_files_in`, each exactly
once and in listing order, and never processes a symlink child (such as a
`Current` link): the run is exactly a fold of `codesign_files_in` over the
non-symlink children. -/
theorem codesign_versions_spec (ctx : Ctx) (n : Nat) (e : Entry) (p : Path)
    (st : SignState) (ch : List (Name × Entry))
    (hok : st.outcome = Outcome.ok) (hch : listdir e = some ch) :
    codesign_versions ctx (n + 1) e p st =
      (ch.filter (fun x => !islink (some x.2))).foldl
        (fun s x => codesign_files_in ctx n x.2 (p ++ [x.1]) s) st := by
  unfold codesign_versions
  rw [run]
  rw [if_neg (by simp [hok]), hch]
  exact versionsLoop_eq_filtered_fold _
    (fun c q s hs => run_stuck ctx n (Call.filesIn c q) s hs) p ch st

/-- C4 witness: `codesign_versions_spec` applied to a concrete `Versions`
directory holding version subdirectories `1`, `2` and a `Current` symlink
to `2`. -/
theorem codesign_versions_spec_witness :
    codesign_versions
        { signer := fun _ _ => true, identity := "-", verbose := false } 5
        (Entry.dir 0 [("1", Entry.dir 0 [("a", Entry.file true 0)]),
          ("2", Entry.dir 0 [("b", Entry.file true 0)]),
          ("Current", Entry.link (some (Entry.dir 0 [("b", Entry.file true 0)])))])
        ["F.framework", "Versions"] { trace := [], outcome := Outcome.ok } =
      ([("1", Entry.dir 0 [("a", Entry.file true 0)]),
        ("2", Entry.dir 0 [("b", Entry.file true 0)]),
        ("Current", Entry.link (some (Entry.dir 0 [("b", Entry.file true 0)])))].filter
          (fun x => !islink (some x.2))).foldl
        (fun s x =>
          codesign_files_in
            { signer := fun _ _ => true, identity := "-", verbose := false } 4 x.2
            (["F.framework", "Versions"] ++ [x.1]) s)
        { trace := [], outcome := Outcome.ok } :=
  codesign_versions_spec _ 4 _ _ _ _ rfl rfl

/-! ## C6: the fixed signable-location table -/

/-- C6: `VALID_SIGNING_PATHS` is exactly the ordered eleven-entry list of
the spec, ending in (and only ending in) the current-directory entry, and
the scan's fallback recursion into an unclassified child directory happens
precisely when the location being scanned is not the current-directory
entry. -/
theorem valid_signing_paths_spec :
    VALID_SIGNING_PATHS =
      [["Frameworks"], ["PlugIns"], ["XPCServices"], ["Helpers"],
       ["Library", "QuickLook"], ["Library", "Automator"], ["Library", "Spotlight"],
       ["Library", "LoginItems"], ["Library", "LaunchServices"], ["MacOS"],
       CURRENT_DIRECTORY_PATH] ∧
    VALID_SIGNING_PATHS.getLast? = some CURRENT_DIRECTORY_PATH ∧
    (∀ loc ∈ VALID_SIGNING_PATHS.dropLast, loc ≠ CURRENT_DIRECTORY_PATH) ∧
    (∀ recurse loc locPath nm c rest bs es st,
      st.outcome = Outcome.ok →
      bundle_candidate nm (some c) = false →
      executable_candidate (some c) = false →
      scanChildren recurse loc locPath ((nm, c) :: rest) (bs, es, st) =
        scanChildren recurse loc locPath rest
          (if loc ≠ CURRENT_DIRECTORY_PATH ∧ isdir (some c) = true then
            (bs, es, recurse c (locPath ++ [nm]) st)
          else (bs, es, st))) := by
  refine ⟨rfl, rfl, by decide, ?_⟩
  intro recurse loc locPath nm c rest bs es st hok hb he
  by_cases hrec : (loc ≠ CURRENT_DIRECTORY_PATH ∧ isdir (some c) = true)
  · simp [scanChildren, hok, hb, he, hrec]
  · simp [scanChildren, hok, hb, he, hrec]

/-- C6 witness: the recursion-guard characterization of
`valid_signing_paths_spec` applied to a concrete extension-less
subdirectory of a `Frameworks` location. -/
theorem valid_signing_paths_spec_witness :
    scanChildren (fun _ _ s => s) ["Frameworks"] ["A.app", "Frameworks"]
        [("moo", Entry.dir 0 [])] ([], [], { trace := [], outcome := Outcome.ok }) =
      scanChildren (fun _ _ s => s) ["Frameworks"] ["A.app", "Frameworks"] []
        (if ["Frameworks"] ≠ CURRENT_DIRECTORY_PATH ∧
            isdir (some (Entry.dir 0 [])) = true then
          ([], [], (fun (_ : Entry) (_ : Path) (s : SignState) => s) (Entry.dir 0 [])
            (["A.app", "Frameworks"] ++ ["moo"]) { trace := [], outcome := Outcome.ok })
        else ([], [], { trace := [], outcome := Outcome.ok })) :=
  valid_signing_paths_spec.2.2.2 (fun _ _ s => s) ["Frameworks"] ["A.app", "Frameworks"]
    "moo" (Entry.dir 0 []) [] [] [] { trace := [], outcome := Outcome.ok }
    rfl (by decide) (by decide)

/-! ## The failure discipline (C3) -/

theorem goodRun_refl (sg : Path → Bool) (st : SignState) : GoodRun sg st st := by
  refine ⟨fun _ => rfl, [], by simp, ?_, ?_⟩
  · intro t1 ev t2 h hf
    exfalso
    cases t1 <;> simp_all
  · intro hok
    exact ⟨hok, by simp⟩

theorem goodRun_setOutcome (sg : Path → Bool) (st : SignState) (o : Outcome)
    (hok : st.outcome = Outcome.ok) (ho : o ≠ Outcome.ok) :
    GoodRun sg st { st with outcome := o } := by
  refine ⟨fun h => absurd hok h, [], by simp, ?_, ?_⟩
  · intro t1 ev t2 h hf
    exfalso
    cases t1 <;> simp_all
  · intro hro
    exact absurd hro ho

theorem goodRun_trans (sg : Path → Bool) (st m r : SignState)
    (h1 : GoodRun sg st m) (h2 : GoodRun sg m r) : GoodRun sg st r := by
  obtain ⟨hs1, n1, ht1, hf1, hg1⟩ := h1
  obtain ⟨hs2, n2, ht2, hf2, hg2⟩ := h2
  constructor
  · intro hst
    have hm := hs1 hst
    have hmo : m.outcome ≠ Outcome.ok := by rw [hm]; exact hst
    rw [hs2 hmo, hm]
  · refine ⟨n1 ++ n2, by rw [ht2, ht1, List.append_assoc], ?_, ?_⟩
    · intro t1 ev t2 hdec hf
      rcases List.append_eq_append_iff.mp hdec with ⟨a', ha1, ha2⟩ | ⟨c', hc1, hc2⟩
      · exact hf2 a' ev t2 ha2 hf
      · cases c' with
        | nil =>
          exact hf2 [] ev t2 (by simpa using hc2.symm) hf
        | cons ev' c'' =>
          rw [List.cons_append] at hc2
          injection hc2 with hev1 hev2
          have hcut := hf1 t1 ev c'' (by rw [hc1, ← hev1]) hf
          obtain ⟨hc'', hmo⟩ := hcut
          have hmdead : m.outcome ≠ Outcome.ok := by rw [hmo]; simp
          have hr := hs2 hmdead
          have hn2 : n2 = [] := by
            have h' := ht2
            rw [hr] at h'
            simpa using h'.symm
          constructor
          · rw [hev2, hc'', hn2]; rfl
          · rw [hr]; exact hmo
    · intro hro
      obtain ⟨hmo, hall2⟩ := hg2 hro
      obtain ⟨hso, hall1⟩ := hg1 hmo
      refine ⟨hso, ?_⟩
      intro ev hev
      rcases List.mem_append.mp hev with h | h
      · exact hall1 ev h
      · exact hall2 ev h

theorem goodRun_codesign_file (ctx : Ctx) (b : Bool) (q : Path) (st : SignState) :
    GoodRun (fun w => ctx.signer ctx.identity w) st (codesign_file ctx b q st) := by
  by_cases hok : st.outcome = Outcome.ok
  · constructor
    · intro h
      exact absurd hok h
    · refine ⟨[(b, q)], ?_, ?_, ?_⟩
      · unfold codesign_file
        rw [if_neg (by simp [hok])]
        by_cases hsg : ctx.signer ctx.identity q = true <;> simp [hsg]
      · intro t1 ev t2 hdec hf
        have hdc : ev = (b, q) ∧ t2 = [] := by
          cases t1 with
          | nil =>
            rw [List.nil_append] at hdec
            injection hdec with h1 h2
            exact ⟨h1.symm, h2.symm⟩
          | cons x xs =>
            exfalso
            rw [List.cons_append] at hdec
            injection hdec with h1 h2
            exact absurd h2.symm (by simp)
        obtain ⟨h2, h3⟩ := hdc
        subst h2
        refine ⟨h3, ?_⟩
        simp only at hf
        unfold codesign_file
        rw [if_neg (by simp [hok])]
        rw [if_neg (by simp [hf])]
      · intro hro
        refine ⟨hok, ?_⟩
        intro ev hev
        have hev' : ev = (b, q) := by simpa using hev
        subst hev'
        by_cases hsg : ctx.signer ctx.identity q = true
        · exact hsg
        · exfalso
          unfold codesign_file at hro
          rw [if_neg (by simp [hok]), if_neg hsg] at hro
          simp at hro
  · rw [codesign_file_stuck ctx b q st hok]
    exact goodRun_refl _ st

theorem goodRun_signBundles (sg : Path → Bool)
    (signB : Path → Entry → SignState → SignState)
    (hB : ∀ q c s, GoodRun sg s (signB q c s)) :
    ∀ (bs : List (Path × Entry)) (st : SignState),
      GoodRun sg st (signBundles signB bs st) := by
  intro bs
  induction bs with
  | nil => intro st; exact goodRun_refl sg st
  | cons x rest ih =>
    intro st
    obtain ⟨q, c⟩ := x
    exact goodRun_trans sg st _ _ (hB q c st) (ih (signB q c st))

theorem goodRun_signExecutables (ctx : Ctx) :
    ∀ (es : List Path) (st : SignState),
      GoodRun (fun w => ctx.signer ctx.identity w) st (signExecutables ctx es st) := by
  intro es
  induction es with
  | nil => intro st; exact goodRun_refl _ st
  | cons q rest ih =>
    intro st
    exact goodRun_trans _ st _ _ (goodRun_codesign_file ctx false q st)
      (ih (codesign_file ctx false q st))

theorem goodRun_versionsLoop (sg : Path → Bool)
    (recurse : Entry → Path → SignState → SignState)
    (hrec : ∀ c q s, GoodRun sg s (recurse c q s)) (p : Path) :
    ∀ (ch : List (Name × Entry)) (st : SignState),
      GoodRun sg st (versionsLoop recurse p ch st) := by
  intro ch
  induction ch with
  | nil => intro st; exact goodRun_refl sg st
  | cons x rest ih =>
    intro st
    obtain ⟨nm, c⟩ := x
    by_cases hok : st.outcome = Outcome.ok
    · rw [versionsLoop, if_neg (by simp [hok])]
      cases hl : islink (some c)
      · rw [if_neg (by simp [hl])]
        exact goodRun_trans sg st _ _ (hrec c (p ++ [nm]) st) (ih _)
      · rw [if_pos (by simp [hl])]
        exact ih st
    · rw [versionsLoop, if_pos hok]
      exact goodRun_refl sg st

theorem goodRun_scanChildren (sg : Path → Bool)
    (recurse : Entry → Path → SignState → SignState)
    (hrec : ∀ c q s, GoodRun sg s (recurse c q s)) (loc : List Name) (locPath : Path) :
    ∀ (children : List (Name × Entry)) (bs : List (Path × Entry)) (es : List Path)
      (st : SignState),
      GoodRun sg st (scanChildren recurse loc locPath children (bs, es, st)).2.2 := by
  intro children
  induction children with
  | nil => intro bs es st; exact goodRun_refl sg st
  | cons x rest ih =>
    intro bs es st
    obtain ⟨nm, c⟩ := x
    by_cases hok : st.outcome = Outcome.ok
    · simp only [scanChildren]
      rw [if_neg (by simp [hok])]
      by_cases hb : bundle_candidate nm (some c) = true
      · rw [if_pos hb]; exact ih _ _ _
      · rw [if_neg hb]
        by_cases he : executable_candidate (some c) = true
        · rw [if_pos he]; exact ih _ _ _
        · rw [if_neg he]
          by_cases hr : (loc ≠ CURRENT_DIRECTORY_PATH ∧ isdir (some c) = true)
          · rw [if_pos hr]
            exact goodRun_trans sg st _ _ (hrec c (locPath ++ [nm]) st) (ih _ _ _)
          · rw [if_neg hr]; exact ih _ _ _
    · simp only [scanChildren]
      rw [if_pos hok]
      exact goodRun_refl sg st

theorem goodRun_scanLocations (sg : Path → Bool)
    (recurse : Entry → Path → SignState → SignState)
    (hrec : ∀ c q s, GoodRun sg s (recurse c q s)) (e : Entry) (p : Path) :
    ∀ (locs : List (List Name)) (bs : List (Path × Entry)) (es : List Path)
      (st : SignState),
      GoodRun sg st (scanLocations recurse e p locs (bs, es, st)).2.2 := by
  intro locs
  induction locs with
  | nil => intro bs es st; exact goodRun_refl sg st
  | cons loc rest ih =>
    intro bs es st
    by_cases hok : st.outcome = Outcome.ok
    · simp only [scanLocations]
      rw [if_neg (by simp [hok])]
      cases hE : entryAt e loc with
      | none => exact ih bs es st
      | some e' =>
        cases e' with
        | dir s ch =>
          rcases hacc : scanChildren recurse loc (joinRel p loc) ch (bs, es, st) with
            ⟨bs', es', st'⟩
          have h1 : GoodRun sg st st' := by
            have := goodRun_scanChildren sg recurse hrec loc (joinRel p loc) ch bs es st
            rw [hacc] at this
            exact this
          simp only
          rw [hacc]
          exact goodRun_trans sg st st' _ h1 (ih bs' es' st')
        | file ex sig =>
          exact goodRun_trans sg st _ _
            (goodRun_setOutcome sg st Outcome.crashed hok (by simp)) (ih bs es _)
        | link t =>
          exact goodRun_trans sg st _ _
            (goodRun_setOutcome sg st Outcome.crashed hok (by simp)) (ih bs es _)
    · simp only [scanLocations]
      rw [if_pos hok]
      exact goodRun_refl sg st

/-- Branch equation for `codesign_bundle`: `Contents` exists and
`Contents/Versions` exists. -/
theorem run_bundle_eq_CV (ctx : Ctx) (n : Nat) (e : Entry) (p : Path) (st : SignState)
    (ce ve : Entry) (hok : st.outcome = Outcome.ok)
    (hC : entryAt e ["Contents"] = some ce) (hV : entryAt ce ["Versions"] = some ve) :
    run ctx (n + 1) (Call.bundle e p) st =
      codesign_file ctx true p
        (run ctx n (Call.filesIn ce (p ++ ["Contents"]))
          (run ctx n (Call.versions ve (p ++ ["Contents", "Versions"])) st)) := by
  simp only [run]
  rw [if_neg (by simp [hok])]
  simp only [hC]
  simp only [hV]

/-- Branch equation for `codesign_bundle`: `Contents` exists, no
`Contents/Versions`. -/
theorem run_bundle_eq_C (ctx : Ctx) (n : Nat) (e : Entry) (p : Path) (st : SignState)
    (ce : Entry) (hok : st.outcome = Outcome.ok)
    (hC : entryAt e ["Contents"] = some ce) (hV : entryAt ce ["Versions"] = none) :
    run ctx (n + 1) (Call.bundle e p) st =
      codesign_file ctx true p (run ctx n (Call.filesIn ce (p ++ ["Contents"])) st) := by
  simp only [run]
  rw [if_neg (by simp [hok])]
  simp only [hC]
  simp only [hV]

/-- Branch equation for `codesign_bundle`: no `Contents`, `Versions`
exists. -/
theorem run_bundle_eq_V (ctx : Ctx) (n : Nat) (e : Entry) (p : Path) (st : SignState)
    (ve : Entry) (hok : st.outcome = Outcome.ok)
    (hC : entryAt e ["Contents"] = none) (hV : entryAt e ["Versions"] = some ve) :
    run ctx (n + 1) (Call.bundle e p) st =
      codesign_file ctx true p (run ctx n (Call.versions ve (p ++ ["Versions"])) st) := by
  simp only [run]
  rw [if_neg (by simp [hok])]
  simp only [hC]
  simp only [hV]

/-- Branch equation for `codesign_bundle`: neither `Contents` nor
`Versions`. -/
theorem run_bundle_eq_none (ctx : Ctx) (n : Nat) (e : Entry) (p : Path) (st : SignState)
    (hok : st.outcome = Outcome.ok)
    (hC : entryAt e ["Contents"] = none) (hV : entryAt e ["Versions"] = none) :
    run ctx (n + 1) (Call.bundle e p) st =
      codesign_file ctx true p (run ctx n (Call.filesIn e p) st) := by
  simp only [run]
  rw [if_neg (by simp [hok])]
  simp only [hC]
  simp only [hV]

theorem run_good (ctx : Ctx) :
    ∀ (n : Nat) (c : Call) (st : SignState),
      GoodRun (fun w => ctx.signer ctx.identity w) st (run ctx n c st) := by
  intro n
  induction n with
  | zero =>
    intro c st
    by_cases hok : st.outcome = Outcome.ok
    · rw [run, if_pos hok]
      exact goodRun_setOutcome _ st Outcome.fuelOut hok (by simp)
    · rw [run, if_neg hok]
      exact goodRun_refl _ st
  | succ n ih =>
    intro c st
    cases c with
    | filesIn e p =>
      by_cases hok : st.outcome = Outcome.ok
      · simp only [run]
        rw [if_neg (by simp [hok])]
        refine goodRun_trans _ st _ _
          (goodRun_trans _ st _ _
            (goodRun_scanLocations _ _ (fun c q s => ih (Call.filesIn c q) s) e p
              VALID_SIGNING_PATHS [] [] st)
            (goodRun_signBundles _ _ (fun q c s => ih (Call.bundle c q) s) _ _))
          (goodRun_signExecutables ctx _ _)
      · rw [run_stuck ctx (n + 1) _ st hok]
        exact goodRun_refl _ st
    | versions e p =>
      by_cases hok : st.outcome = Outcome.ok
      · simp only [run]
        rw [if_neg (by simp [hok])]
        cases hld : listdir e with
        | some ch =>
          exact goodRun_versionsLoop _ _ (fun c q s => ih (Call.filesIn c q) s) p ch st
        | none =>
          exact goodRun_setOutcome _ st Outcome.crashed hok (by simp)
      · rw [run_stuck ctx (n + 1) _ st hok]
        exact goodRun_refl _ st
    | bundle e p =>
      by_cases hok : st.outcome = Outcome.ok
      · cases hC : entryAt e ["Contents"] with
        | some ce =>
          cases hV : entryAt ce ["Versions"] with
          | some ve =>
            rw [run_bundle_eq_CV ctx n e p st ce ve hok hC hV]
            exact goodRun_trans _ st _ _
              (goodRun_trans _ st _ _ (ih (Call.versions ve (p ++ ["Contents", "Versions"])) st)
                (ih (Call.filesIn ce (p ++ ["Contents"])) _))
              (goodRun_codesign_file ctx true p _)
          | none =>
            rw [run_bundle_eq_C ctx n e p st ce hok hC hV]
            exact goodRun_trans _ st _ _ (ih (Call.filesIn ce (p ++ ["Contents"])) st)
              (goodRun_codesign_file ctx true p _)
        | none =>
          cases hV : entryAt e ["Versions"] with
          | some ve =>
            rw [run_bundle_eq_V ctx n e p st ve hok hC hV]
            exact goodRun_trans _ st _ _ (ih (Call.versions ve (p ++ ["Versions"])) st)
              (goodRun_codesign_file ctx true p _)
          | none =>
            rw [run_bundle_eq_none ctx n e p st hok hC hV]
            exact goodRun_trans _ st _ _ (ih (Call.filesIn e p) st)
              (goodRun_codesign_file ctx true p _)
      · rw [run_stuck ctx (n + 1) _ st hok]
        exact goodRun_refl _ st

/-- C3: if the signer reports failure for any path in the run, that
invocation is the very last one in the entire trace — no sibling or
ancestor path is signed afterwards — and the process reports failure with
exit code 1. -/
theorem signer_failure_halts (ctx : Ctx) (n : Nat) (c : Call) (st : SignState)
    (t1 : List Ev) (ev : Ev) (t2 : List Ev)
    (hok : st.outcome = Outcome.ok) (htr : st.trace = [])
    (hdec : (run ctx n c st).trace = t1 ++ ev :: t2)
    (hfail : ctx.signer ctx.identity ev.2 = false) :
    t2 = [] ∧ (run ctx n c st).outcome = Outcome.exit1 := by
  obtain ⟨hs, new, ht, hf, hg⟩ := run_good ctx n c st
  rw [htr, List.nil_append] at ht
  exact hf t1 ev t2 (by rw [← ht, hdec]) hfail

/-- C3 witness: `signer_failure_halts` on a concrete bundle whose signer
fails on the first of two executables: the failing invocation is the last
one (the sibling and the bundle itself are never signed) and the outcome is
exit code 1. -/
theorem signer_failure_halts_witness :
    ([] : List Ev) = [] ∧
    (run
      { signer := fun _ w => decide (w ≠ ["A.app", "Contents", "MacOS", "bad"]),
        identity := "-", verbose := false } 4
      (Call.bundle
        (Entry.dir 0 [("Contents", Entry.dir 0
          [("MacOS", Entry.dir 0
            [("bad", Entry.file true 0), ("good", Entry.file true 0)])])])
        ["A.app"])
      { trace := [], outcome := Outcome.ok }).outcome = Outcome.exit1 :=
  signer_failure_halts _ 4 _ _ [] (false, ["A.app", "Contents", "MacOS", "bad"]) []
    rfl rfl (by decide) (by decide)

/-! ## The trace shape of the traversal (C1, C2, C5) -/

theorem traceExt_refl (P : Ev → Prop) (st : SignState) : TraceExt P st st :=
  ⟨[], by simp, by simp⟩

theorem traceExt_mono (P Q : Ev → Prop) (h : ∀ ev, P ev → Q ev) (st r : SignState)
    (hT : TraceExt P st r) : TraceExt Q st r := by
  obtain ⟨new, ht, hall⟩ := hT
  exact ⟨new, ht, fun ev hev => h ev (hall ev hev)⟩

theorem traceExt_trans (P : Ev → Prop) (st m r : SignState)
    (h1 : TraceExt P st m) (h2 : TraceExt P m r) : TraceExt P st r := by
  obtain ⟨n1, ht1, ha1⟩ := h1
  obtain ⟨n2, ht2, ha2⟩ := h2
  refine ⟨n1 ++ n2, by rw [ht2, ht1, List.append_assoc], ?_⟩
  intro ev hev
  rcases List.mem_append.mp hev with h | h
  · exact ha1 ev h
  · exact ha2 ev h

theorem traceExt_setOutcome (P : Ev → Prop) (st : SignState) (o : Outcome) :
    TraceExt P st { st with outcome := o } :=
  ⟨[], by simp, by simp⟩

theorem traceExt_codesign_file (ctx : Ctx) (b : Bool) (q : Path) (st : SignState)
    (P : Ev → Prop) (hP : P (b, q)) : TraceExt P st (codesign_file ctx b q st) := by
  by_cases hok : st.outcome = Outcome.ok
  · refine ⟨[(b, q)], ?_, ?_⟩
    · unfold codesign_file
      rw [if_neg (by simp [hok])]
      by_cases hsg : ctx.signer ctx.identity q = true <;> simp [hsg]
    · intro ev hev
      have : ev = (b, q) := by simpa using hev
      rw [this]
      exact hP
  · rw [codesign_file_stuck ctx b q st hok]
    exact traceExt_refl P st

theorem strictBelow_of_append (p s0 : Path) (ev : Ev)
    (h : StrictBelow (p ++ s0) ev) : StrictBelow p ev := by
  obtain ⟨s, hs, he⟩ := h
  exact ⟨s0 ++ s, by simp [hs], by rw [he, List.append_assoc]⟩

theorem bundleShape_traceExt (p q : Path) (st r : SignState)
    (h : BundleShape q st r) (s0 : Path) (hq : q = p ++ s0) (hs0 : s0 ≠ []) :
    TraceExt (StrictBelow p) st r := by
  obtain ⟨inner, fin, ht, hin, hfin, _⟩ := h
  refine ⟨inner ++ fin, by rw [ht, List.append_assoc], ?_⟩
  intro ev hev
  rcases List.mem_append.mp hev with hev | hev
  · exact strictBelow_of_append p s0 ev (hq ▸ hin ev hev)
  · rcases hfin with hf | hf
    · rw [hf] at hev; simp at hev
    · rw [hf] at hev
      have : ev = (true, q) := by simpa using hev
      exact ⟨s0, hs0, by rw [this, hq]⟩

theorem traceExt_signExecutables (ctx : Ctx) (P : Ev → Prop) :
    ∀ (es : List Path) (st : SignState), (∀ q ∈ es, P (false, q)) →
      TraceExt P st (signExecutables ctx es st) := by
  intro es
  induction es with
  | nil => intro st _; exact traceExt_refl P st
  | cons q rest ih =>
    intro st hes
    refine traceExt_trans P st _ _
      (traceExt_codesign_file ctx false q st P (hes q (List.mem_cons_self q rest))) ?_
    exact ih _ (fun w hw => hes w (List.mem_cons_of_mem q hw))

theorem traceExt_signBundles (P : Ev → Prop)
    (signB : Path → Entry → SignState → SignState) :
    ∀ (bs : List (Path × Entry)) (st : SignState),
      (∀ x ∈ bs, ∀ s, TraceExt P s (signB x.1 x.2 s)) →
      TraceExt P st (signBundles signB bs st) := by
  intro bs
  induction bs with
  | nil => intro st _; exact traceExt_refl P st
  | cons x rest ih =>
    intro st hB
    obtain ⟨q, c⟩ := x
    refine traceExt_trans P st _ _ (hB (q, c) (List.mem_cons_self _ rest) st) ?_
    exact ih _ (fun w hw => hB w (List.mem_cons_of_mem _ hw))

theorem traceExt_versionsLoop (P : Ev → Prop)
    (recurse : Entry → Path → SignState → SignState) (p : Path)
    (hrec : ∀ c nm s, TraceExt P s (recurse c (p ++ [nm]) s)) :
    ∀ (ch : List (Name × Entry)) (st : SignState),
      TraceExt P st (versionsLoop recurse p ch st) := by
  intro ch
  induction ch with
  | nil => intro st; exact traceExt_refl P st
  | cons x rest ih =>
    intro st
    obtain ⟨nm, c⟩ := x
    by_cases hok : st.outcome = Outcome.ok
    · rw [versionsLoop, if_neg (by simp [hok])]
      cases hl : islink (some c)
      · rw [if_neg (by simp [hl])]
        exact traceExt_trans P st _ _ (hrec c nm st) (ih _)
      · rw [if_pos (by simp [hl])]
        exact ih st
    · rw [versionsLoop, if_pos hok]
      exact traceExt_refl P st

theorem scanChildren_shape (p : Path)
    (recurse : Entry → Path → SignState → SignState)
    (hrec : ∀ c q s, (∃ w, w ≠ [] ∧ q = p ++ w) →
      TraceExt (StrictBelow p) s (recurse c q s))
    (loc : List Name) (locPath : Path) (s0 : List Name) (hlp : locPath = p ++ s0) :
    ∀ (children : List (Name × Entry)) (bs : List (Path × Entry)) (es : List Path)
      (st : SignState),
      ∃ bnew enew rst,
        scanChildren recurse loc locPath children (bs, es, st) =
          (bs ++ bnew, es ++ enew, rst) ∧
        (∀ x ∈ bnew, ∃ w, w ≠ [] ∧ x.1 = p ++ w) ∧
        (∀ q ∈ enew, ∃ w, w ≠ [] ∧ q = p ++ w) ∧
        TraceExt (StrictBelow p) st rst := by
  intro children
  induction children with
  | nil =>
    intro bs es st
    exact ⟨[], [], st, by simp [scanChildren], by simp, by simp, traceExt_refl _ st⟩
  | cons x rest ih =>
    intro bs es st
    obtain ⟨nm, c⟩ := x
    have hchild : locPath ++ [nm] = p ++ (s0 ++ [nm]) := by rw [hlp, List.append_assoc]
    have hchildne : s0 ++ [nm] ≠ [] := by simp
    by_cases hok : st.outcome = Outcome.ok
    · simp only [scanChildren]
      rw [if_neg (by simp [hok])]
      by_cases hb : bundle_candidate nm (some c) = true
      · rw [if_pos hb]
        obtain ⟨bnew, enew, rst, heq, hbp, hep, hT⟩ := ih (bs ++ [(locPath ++ [nm], c)]) es st
        refine ⟨(locPath ++ [nm], c) :: bnew, enew, rst, ?_, ?_, hep, hT⟩
        · rw [heq, List.append_assoc]
          rfl
        · intro x hx
          rcases List.mem_cons.mp hx with hx | hx
          · exact ⟨s0 ++ [nm], hchildne, by rw [hx, hchild]⟩
          · exact hbp x hx
      · rw [if_neg hb]
        by_cases he : executable_candidate (some c) = true
        · rw [if_pos he]
          obtain ⟨bnew, enew, rst, heq, hbp, hep, hT⟩ := ih bs (es ++ [locPath ++ [nm]]) st
          refine ⟨bnew, (locPath ++ [nm]) :: enew, rst, ?_, hbp, ?_, hT⟩
          · rw [heq, List.append_assoc]
            rfl
          · intro q hq
            rcases List.mem_cons.mp hq with hq | hq
            · exact ⟨s0 ++ [nm], hchildne, by rw [hq, hchild]⟩
            · exact hep q hq
        · rw [if_neg he]
          by_cases hr : (loc ≠ CURRENT_DIRECTORY_PATH ∧ isdir (some c) = true)
          · rw [if_pos hr]
            obtain ⟨bnew, enew, rst, heq, hbp, hep, hT⟩ :=
              ih bs es (recurse c (locPath ++ [nm]) st)
            refine ⟨bnew, enew, rst, heq, hbp, hep, ?_⟩
            exact traceExt_trans _ st _ _
              (hrec c (locPath ++ [nm]) st ⟨s0 ++ [nm], hchildne, hchild⟩) hT
          · rw [if_neg hr]
            exact ih bs es st
    · simp only [scanChildren]
      rw [if_pos hok]
      exact ⟨[], [], st, by simp, by simp, by simp, traceExt_refl _ st⟩

theorem scanLocations_shape (p : Path)
    (recurse : Entry → Path → SignState → SignState)
    (hrec : ∀ c q s, (∃ w, w ≠ [] ∧ q = p ++ w) →
      TraceExt (StrictBelow p) s (recurse c q s)) (e : Entry) :
    ∀ (locs : List (List Name)) (bs : List (Path × Entry)) (es : List Path)
      (st : SignState),
      ∃ bnew enew rst,
        scanLocations recurse e p locs (bs, es, st) = (bs ++ bnew, es ++ enew, rst) ∧
        (∀ x ∈ bnew, ∃ w, w ≠ [] ∧ x.1 = p ++ w) ∧
        (∀ q ∈ enew, ∃ w, w ≠ [] ∧ q = p ++ w) ∧
        TraceExt (StrictBelow p) st rst := by
  intro locs
  induction locs with
  | nil =>
    intro bs es st
    exact ⟨[], [], st, by simp [scanLocations], by simp, by simp, traceExt_refl _ st⟩
  | cons loc rest ih =>
    intro bs es st
    by_cases hok : st.outcome = Outcome.ok
    · simp only [scanLocations]
      rw [if_neg (by simp [hok])]
      cases hE : entryAt e loc with
      | none =>
        exact ih bs es st
      | some e' =>
        cases e' with
        | dir s ch =>
          obtain ⟨b1, e1, st1, heq1, hbp1, hep1, hT1⟩ :=
            scanChildren_shape p recurse hrec loc (joinRel p loc)
              (loc.filter (fun nm => nm ≠ ".")) rfl ch bs es st
          simp only
          rw [heq1]
          obtain ⟨b2, e2, st2, heq2, hbp2, hep2, hT2⟩ := ih (bs ++ b1) (es ++ e1) st1
          refine ⟨b1 ++ b2, e1 ++ e2, st2, ?_, ?_, ?_, traceExt_trans _ st st1 st2 hT1 hT2⟩
          · rw [heq2, List.append_assoc, List.append_assoc]
          · intro x hx
            rcases List.mem_append.mp hx with hx | hx
            · exact hbp1 x hx
            · exact hbp2 x hx
          · intro q hq
            rcases List.mem_append.mp hq with hq | hq
            · exact hep1 q hq
            · exact hep2 q hq
        | file ex sig =>
          obtain ⟨b2, e2, st2, heq2, hbp2, hep2, hT2⟩ :=
            ih bs es { st with outcome := Outcome.crashed }
          refine ⟨b2, e2, st2, heq2, hbp2, hep2, ?_⟩
          exact traceExt_trans _ st _ st2 (traceExt_setOutcome _ st Outcome.crashed) hT2
        | link t =>
          obtain ⟨b2, e2, st2, heq2, hbp2, hep2, hT2⟩ :=
            ih bs es { st with outcome := Outcome.crashed }
          refine ⟨b2, e2, st2, heq2, hbp2, hep2, ?_⟩
          exact traceExt_trans _ st _ st2 (traceExt_setOutcome _ st Outcome.crashed) hT2
    · simp only [scanLocations]
      rw [if_pos hok]
      exact ⟨[], [], st, by simp, by simp, by simp, traceExt_refl _ st⟩

theorem bundleShape_codesign_file (ctx : Ctx) (p : Path) (st st' : SignState)
    (hse : TraceExt (StrictBelow p) st st') :
    BundleShape p st (codesign_file ctx true p st') := by
  obtain ⟨new, ht, hall⟩ := hse
  by_cases hok : st'.outcome = Outcome.ok
  · refine ⟨new, [(true, p)], ?_, hall, Or.inr rfl, fun _ => rfl⟩
    have : (codesign_file ctx true p st').trace = st'.trace ++ [(true, p)] := by
      unfold codesign_file
      rw [if_neg (by simp [hok])]
      by_cases hsg : ctx.signer ctx.identity p = true <;> simp [hsg]
    rw [this, ht, List.append_assoc]
  · rw [codesign_file_stuck ctx true p st' hok]
    refine ⟨new, [], by rw [List.append_nil, ht], hall, Or.inl rfl, ?_⟩
    intro hro
    exact absurd hro hok

theorem run_shape (ctx : Ctx) :
    ∀ n : Nat,
      (∀ e p st, TraceExt (StrictBelow p) st (run ctx n (Call.filesIn e p) st)) ∧
      (∀ e p st, TraceExt (StrictBelow p) st (run ctx n (Call.versions e p) st)) ∧
      (∀ e p st, BundleShape p st (run ctx n (Call.bundle e p) st)) := by
  intro n
  induction n with
  | zero =>
    refine ⟨?_, ?_, ?_⟩ <;> intro e p st <;> by_cases hok : st.outcome = Outcome.ok
    · rw [run, if_pos hok]; exact traceExt_setOutcome _ st _
    · rw [run, if_neg hok]; exact traceExt_refl _ st
    · rw [run, if_pos hok]; exact traceExt_setOutcome _ st _
    · rw [run, if_neg hok]; exact traceExt_refl _ st
    · rw [run, if_pos hok]
      exact ⟨[], [], by simp, by simp, Or.inl rfl, fun h => by simp at h⟩
    · rw [run, if_neg hok]
      exact ⟨[], [], by simp, by simp, Or.inl rfl, fun h => absurd h hok⟩
  | succ n ih =>
    obtain ⟨ihF, ihV, ihB⟩ := ih
    refine ⟨?_, ?_, ?_⟩
    · intro e p st
      by_cases hok : st.outcome = Outcome.ok
      · simp only [run]
        rw [if_neg (by simp [hok])]
        have hrecp : ∀ c q s, (∃ w, w ≠ [] ∧ q = p ++ w) →
            TraceExt (StrictBelow p) s (run ctx n (Call.filesIn c q) s) := by
          intro c q s h
          obtain ⟨w, hw, hq⟩ := h
          exact traceExt_mono _ _
            (fun ev hev => strictBelow_of_append p w ev (hq ▸ hev)) _ _ (ihF c q s)
        obtain ⟨bnew, enew, rst, heq, hbp, hep, hT⟩ :=
          scanLocations_shape p _ hrecp e VALID_SIGNING_PATHS [] [] st
        rw [heq]
        exact traceExt_trans _ st rst _ hT
          (traceExt_trans _ rst _ _
            (traceExt_signBundles _ _ bnew rst (fun x hx s => by
              obtain ⟨w, hw, hxp⟩ := hbp x hx
              exact bundleShape_traceExt p x.1 s _ (ihB x.2 x.1 s) w hxp hw))
            (traceExt_signExecutables ctx _ enew _ (fun q hq => by
              obtain ⟨w, hw, hqp⟩ := hep q hq
              exact ⟨w, hw, by rw [hqp]⟩)))
      · rw [run_stuck ctx (n + 1) _ st hok]
        exact traceExt_refl _ st
    · intro e p st
      by_cases hok : st.outcome = Outcome.ok
      · simp only [run]
        rw [if_neg (by simp [hok])]
        cases hld : listdir e with
        | some ch =>
          refine traceExt_versionsLoop _ _ p ?_ ch st
          intro c nm s
          exact traceExt_mono _ _
            (fun ev hev => strictBelow_of_append p [nm] ev hev) _ _ (ihF c (p ++ [nm]) s)
        | none =>
          exact traceExt_setOutcome _ st _
      · rw [run_stuck ctx (n + 1) _ st hok]
        exact traceExt_refl _ st
    · intro e p st
      by_cases hok : st.outcome = Outcome.ok
      · cases hC : entryAt e ["Contents"] with
        | some ce =>
          cases hV : entryAt ce ["Versions"] with
          | some ve =>
            rw [run_bundle_eq_CV ctx n e p st ce ve hok hC hV]
            refine bundleShape_codesign_file ctx p st _ ?_
            exact traceExt_trans _ st
              (run ctx n (Call.versions ve (p ++ ["Contents", "Versions"])) st) _
              (traceExt_mono _ _
                (fun ev hev => strictBelow_of_append p ["Contents", "Versions"] ev hev)
                _ _ (ihV ve (p ++ ["Contents", "Versions"]) st))
              (traceExt_mono _ _
                (fun ev hev => strictBelow_of_append p ["Contents"] ev hev)
                _ _ (ihF ce (p ++ ["Contents"]) _))
          | none =>
            rw [run_bundle_eq_C ctx n e p st ce hok hC hV]
            refine bundleShape_codesign_file ctx p st _ ?_
            exact traceExt_mono _ _
              (fun ev hev => strictBelow_of_append p ["Contents"] ev hev)
              _ _ (ihF ce (p ++ ["Contents"]) st)
        | none =>
          cases hV : entryAt e ["Versions"] with
          | some ve =>
            rw [run_bundle_eq_V ctx n e p st ve hok hC hV]
            refine bundleShape_codesign_file ctx p st _ ?_
            exact traceExt_mono _ _
              (fun ev hev => strictBelow_of_append p ["Versions"] ev hev)
              _ _ (ihV ve (p ++ ["Versions"]) st)
          | none =>
            rw [run_bundle_eq_none ctx n e p st hok hC hV]
            exact bundleShape_codesign_file ctx p st _ (ihF e p st)
      · rw [run_stuck ctx (n + 1) _ st hok]
        exact ⟨[], [], by simp, by simp, Or.inl rfl, fun h => absurd h hok⟩

/-- C1: the trace of `codesign_bundle` on a bundle path `p`, for a run that
completes, consists of invocations on paths strictly below `p` followed by
the single final invocation on `p` itself.  Every nested bundle `N` the
traversal reaches — directly, via a recognized location, via fallback
recursion into an unrecognized subdirectory, or via a versioned
subdirectory — has its own self-signature event `(true, N)` inside the
prefix `t`, so the Signer is invoked on `N` strictly before the one
invocation on `p`.  The theorem is quantified over every bundle call, so it
applies again at each nested bundle, giving the ordering transitively for
arbitrarily deep nesting. -/
theorem nested_signed_before_enclosing (ctx : Ctx) (n : Nat) (e : Entry) (p : Path)
    (hok : (codesign_bundle ctx n e p { trace := [], outcome := Outcome.ok }).outcome =
      Outcome.ok) :
    ∃ t, (codesign_bundle ctx n e p { trace := [], outcome := Outcome.ok }).trace =
        t ++ [(true, p)] ∧
      ∀ ev ∈ t, (∃ s, s ≠ [] ∧ ev.2 = p ++ s) ∧ ev.2 ≠ p := by
  obtain ⟨inner, fin, ht, hin, hfin, hfo⟩ :=
    (run_shape ctx n).2.2 e p { trace := [], outcome := Outcome.ok }
  have hfin' := hfo hok
  refine ⟨inner, ?_, ?_⟩
  · unfold codesign_bundle
    rw [ht, hfin']
    simp
  · intro ev hev
    obtain ⟨s, hs, he⟩ := hin ev hev
    refine ⟨⟨s, hs, he⟩, ?_⟩
    rw [he]
    intro hcontra
    exact hs (by simpa using hcontra)

/-- C1 witness: `nested_signed_before_enclosing` on the spec's synthetic
bundle `A.app/Contents/Frameworks/B.framework/Versions/1/C.bundle`, whose
run completes successfully. -/
theorem nested_signed_before_enclosing_witness :
    ∃ t, (codesign_bundle { signer := fun _ _ => true, identity := "-", verbose := false }
        20
        (Entry.dir 0 [("Contents", Entry.dir 0
          [("Frameworks", Entry.dir 0
            [("B.framework", Entry.dir 0
              [("Versions", Entry.dir 0
                [("1", Entry.dir 0
                  [("C.bundle", Entry.dir 0 [("x", Entry.file true 0)])])])])])])])
        ["A.app"] { trace := [], outcome := Outcome.ok }).trace =
        t ++ [(true, ["A.app"])] ∧
      ∀ ev ∈ t, (∃ s, s ≠ [] ∧ ev.2 = ["A.app"] ++ s) ∧ ev.2 ≠ ["A.app"] :=
  nested_signed_before_enclosing _ 20 _ ["A.app"] (by decide)

/-- C2: `codesign_bundle` takes exactly one of three branches — (1) when
`Contents` exists, process `Contents/Versions` first when that exists and
then scan `Contents`; (2) otherwise, when `Versions` exists, process it as
a versioned directory; (3) otherwise scan the bundle root directly — and in
all three cases the branch result is passed to the unconditional final
`codesign_file` on the bundle path itself; when the run completes `ok` the
very last Signer invocation emitted is that self-signature. -/
theorem bundle_dispatch (ctx : Ctx) (n : Nat) (e : Entry) (p : Path) (st : SignState)
    (hok : st.outcome = Outcome.ok) :
    ((∃ ce, entryAt e ["Contents"] = some ce ∧
       ((∃ ve, entryAt ce ["Versions"] = some ve ∧
          codesign_bundle ctx (n + 1) e p st =
            codesign_file ctx true p
              (codesign_files_in ctx n ce (p ++ ["Contents"])
                (codesign_versions ctx n ve (p ++ ["Contents", "Versions"]) st))) ∨
        (entryAt ce ["Versions"] = none ∧
          codesign_bundle ctx (n + 1) e p st =
            codesign_file ctx true p
              (codesign_files_in ctx n ce (p ++ ["Contents"]) st)))) ∨
     (entryAt e ["Contents"] = none ∧
      ∃ ve, entryAt e ["Versions"] = some ve ∧
        codesign_bundle ctx (n + 1) e p st =
          codesign_file ctx true p
            (codesign_versions ctx n ve (p ++ ["Versions"]) st)) ∨
     (entryAt e ["Contents"] = none ∧ entryAt e ["Versions"] = none ∧
       codesign_bundle ctx (n + 1) e p st =
         codesign_file ctx true p (codesign_files_in ctx n e p st))) ∧
    ((codesign_bundle ctx (n + 1) e p st).outcome = Outcome.ok →
      ∃ t, (codesign_bundle ctx (n + 1) e p st).trace =
        st.trace ++ t ++ [(true, p)]) := by
  constructor
  · cases hC : entryAt e ["Contents"] with
    | some ce =>
      cases hV : entryAt ce ["Versions"] with
      | some ve =>
        exact Or.inl ⟨ce, rfl, Or.inl ⟨ve, hV, run_bundle_eq_CV ctx n e p st ce ve hok hC hV⟩⟩
      | none =>
        exact Or.inl ⟨ce, rfl, Or.inr ⟨hV, run_bundle_eq_C ctx n e p st ce hok hC hV⟩⟩
    | none =>
      cases hV : entryAt e ["Versions"] with
      | some ve =>
        exact Or.inr (Or.inl ⟨rfl, ve, rfl, run_bundle_eq_V ctx n e p st ve hok hC hV⟩)
      | none =>
        exact Or.inr (Or.inr ⟨rfl, rfl, run_bundle_eq_none ctx n e p st hok hC hV⟩)
  · intro hro
    obtain ⟨inner, fin, ht, hin, hfin, hfo⟩ := (run_shape ctx (n + 1)).2.2 e p st
    have hfin' := hfo hro
    refine ⟨inner, ?_⟩
    unfold codesign_bundle
    rw [ht, hfin']

/-- C2 witness: `bundle_dispatch` on a concrete degenerate bundle with
neither `Contents` nor `Versions`, whose root is scanned directly and still
self-signed last. -/
theorem bundle_dispatch_witness :
    ((∃ ce, entryAt (Entry.dir 0 [("x", Entry.file true 0)]) ["Contents"] = some ce ∧
       ((∃ ve, entryAt ce ["Versions"] = some ve ∧
          codesign_bundle { signer := fun _ _ => true, identity := "-", verbose := false }
              3 (Entry.dir 0 [("x", Entry.file true 0)]) ["D.bundle"]
              { trace := [], outcome := Outcome.ok } =
            codesign_file { signer := fun _ _ => true, identity := "-", verbose := false }
              true ["D.bundle"]
              (codesign_files_in
                { signer := fun _ _ => true, identity := "-", verbose := false } 2 ce
                (["D.bundle"] ++ ["Contents"])
                (codesign_versions
                  { signer := fun _ _ => true, identity := "-", verbose := false } 2 ve
                  (["D.bundle"] ++ ["Contents", "Versions"])
                  { trace := [], outcome := Outcome.ok }))) ∨
        (entryAt ce ["Versions"] = none ∧
          codesign_bundle { signer := fun _ _ => true, identity := "-", verbose := false }
              3 (Entry.dir 0 [("x", Entry.file true 0)]) ["D.bundle"]
              { trace := [], outcome := Outcome.ok } =
            codesign_file { signer := fun _ _ => true, identity := "-", verbose := false }
              true ["D.bundle"]
              (codesign_files_in
                { signer := fun _ _ => true, identity := "-", verbose := false } 2 ce
                (["D.bundle"] ++ ["Contents"]) { trace := [], outcome := Outcome.ok })))) ∨
     (entryAt (Entry.dir 0 [("x", Entry.file true 0)]) ["Contents"] = none ∧
      ∃ ve, entryAt (Entry.dir 0 [("x", Entry.file true 0)]) ["Versions"] = some ve ∧
        codesign_bundle { signer := fun _ _ => true, identity := "-", verbose := false }
            3 (Entry.dir 0 [("x", Entry.file true 0)]) ["D.bundle"]
            { trace := [], outcome := Outcome.ok } =
          codesign_file { signer := fun _ _ => true, identity := "-", verbose := false }
            true ["D.bundle"]
            (codesign_versions
              { signer := fun _ _ => true, identity := "-", verbose := false } 2 ve
              (["D.bundle"] ++ ["Versions"]) { trace := [], outcome := Outcome.ok })) ∨
     (entryAt (Entry.dir 0 [("x", Entry.file true 0)]) ["Contents"] = none ∧
      entryAt (Entry.dir 0 [("x", Entry.file true 0)]) ["Versions"] = none ∧
       codesign_bundle { signer := fun _ _ => true, identity := "-", verbose := false }
           3 (Entry.dir 0 [("x", Entry.file true 0)]) ["D.bundle"]
           { trace := [], outcome := Outcome.ok } =
         codesign_file { signer := fun _ _ => true, identity := "-", verbose := false }
           true ["D.bundle"]
           (codesign_files_in
             { signer := fun _ _ => true, identity := "-", verbose := false } 2
             (Entry.dir 0 [("x", Entry.file true 0)]) ["D.bundle"]
             { trace := [], outcome := Outcome.ok }))) ∧
    ((codesign_bundle { signer := fun _ _ => true, identity := "-", verbose := false }
        3 (Entry.dir 0 [("x", Entry.file true 0)]) ["D.bundle"]
        { trace := [], outcome := Outcome.ok }).outcome = Outcome.ok →
      ∃ t, (codesign_bundle { signer := fun _ _ => true, identity := "-", verbose := false }
          3 (Entry.dir 0 [("x", Entry.file true 0)]) ["D.bundle"]
          { trace := [], outcome := Outcome.ok }).trace =
        ({ trace := [], outcome := Outcome.ok } : SignState).trace ++ t ++
          [(true, ["D.bundle"])]) :=
  bundle_dispatch _ 2 (Entry.dir 0 [("x", Entry.file true 0)]) ["D.bundle"]
    { trace := [], outcome := Outcome.ok } rfl

/-! ## C5: bundles are signed before executables at each directory level -/

theorem signExecutables_stuck (ctx : Ctx) :
    ∀ (es : List Path) (st : SignState), st.outcome ≠ Outcome.ok →
      signExecutables ctx es st = st := by
  intro es
  induction es with
  | nil => intro st _; rfl
  | cons q rest ih =>
    intro st h
    rw [signExecutables, codesign_file_stuck ctx false q st h]
    exact ih st h

theorem signBundles_stuck (signB : Path → Entry → SignState → SignState)
    (hstuck : ∀ q c s, s.outcome ≠ Outcome.ok → signB q c s = s) :
    ∀ (bs : List (Path × Entry)) (st : SignState), st.outcome ≠ Outcome.ok →
      signBundles signB bs st = st := by
  intro bs
  induction bs with
  | nil => intro st _; rfl
  | cons x rest ih =>
    intro st h
    obtain ⟨q, c⟩ := x
    rw [signBundles, hstuck q c st h]
    exact ih st h

theorem signExecutables_trace_ok (ctx : Ctx) :
    ∀ (es : List Path) (st : SignState),
      (signExecutables ctx es st).outcome = Outcome.ok →
      (signExecutables ctx es st).trace =
        st.trace ++ es.map (fun q => (false, q)) := by
  intro es
  induction es with
  | nil => intro st _; simp [signExecutables]
  | cons q rest ih =>
    intro st hro
    by_cases hok : st.outcome = Outcome.ok
    · by_cases hsg : ctx.signer ctx.identity q = true
      · have hcf : codesign_file ctx false q st =
            { trace := st.trace ++ [(false, q)], outcome := Outcome.ok } := by
          unfold codesign_file
          rw [if_neg (by simp [hok]), if_pos hsg]
          cases st
          simp_all
        rw [signExecutables] at hro ⊢
        rw [hcf] at hro ⊢
        rw [ih _ hro]
        simp
      · exfalso
        have hcf : (codesign_file ctx false q st).outcome = Outcome.exit1 := by
          unfold codesign_file
          rw [if_neg (by simp [hok]), if_neg hsg]
        rw [signExecutables,
          signExecutables_stuck ctx rest _ (by rw [hcf]; simp)] at hro
        rw [hcf] at hro
        simp at hro
    · exfalso
      rw [signExecutables_stuck ctx _ st hok] at hro
      exact hok hro

theorem signBundles_contains (signB : Path → Entry → SignState → SignState)
    (hstuck : ∀ q c s, s.outcome ≠ Outcome.ok → signB q c s = s)
    (hshape : ∀ q c s, BundleShape q s (signB q c s)) :
    ∀ (bs : List (Path × Entry)) (st : SignState),
      (signBundles signB bs st).outcome = Outcome.ok →
      ∃ seg, (signBundles signB bs st).trace = st.trace ++ seg ∧
        ∀ x ∈ bs, (true, x.1) ∈ seg := by
  intro bs
  induction bs with
  | nil => intro st _; exact ⟨[], by simp [signBundles], by simp⟩
  | cons x rest ih =>
    intro st hro
    obtain ⟨q, c⟩ := x
    rw [signBundles] at hro ⊢
    have hst1 : (signB q c st).outcome = Outcome.ok := by
      by_contra hne
      rw [signBundles_stuck signB hstuck rest _ hne] at hro
      exact hne hro
    obtain ⟨inner, fin, ht, hin, hfin, hfo⟩ := hshape q c st
    have hfin' := hfo hst1
    obtain ⟨seg, hseg, hmem⟩ := ih (signB q c st) hro
    refine ⟨inner ++ [(true, q)] ++ seg, ?_, ?_⟩
    · rw [hseg, ht, hfin']
      simp [List.append_assoc]
    · intro x hx
      rcases List.mem_cons.mp hx with hx | hx
      · rw [hx]
        simp
      · have := hmem x hx
        simp [this]

/-- C5: `codesign_files_in` first runs its scan phase (collecting bundles
and executables and performing the fallback recursion), then signs every
collected bundle via `codesign_bundle`, then every collected executable via
`codesign_file`; in a completed run the trace after the scan phase is the
bundle segment `B` — containing the self-signature `(true, b)` of every
collected bundle `b` — followed by exactly the executable invocations, so
every collected bundle's Signer invocations precede every collected
executable's. -/
theorem bundles_before_executables (ctx : Ctx) (n : Nat) (e : Entry) (p : Path)
    (st : SignState) (hok : st.outcome = Outcome.ok) :
    ∃ bs es stScan,
      scanLocations (fun c q s => codesign_files_in ctx n c q s) e p
          VALID_SIGNING_PATHS ([], [], st) = (bs, es, stScan) ∧
      codesign_files_in ctx (n + 1) e p st =
        signExecutables ctx es
          (signBundles (fun q c s => codesign_bundle ctx n c q s) bs stScan) ∧
      ((codesign_files_in ctx (n + 1) e p st).outcome = Outcome.ok →
        ∃ B, (codesign_files_in ctx (n + 1) e p st).trace =
            stScan.trace ++ B ++ es.map (fun q => (false, q)) ∧
          ∀ x ∈ bs, (true, x.1) ∈ B) := by
  refine ⟨(scanLocations (fun c q s => codesign_files_in ctx n c q s) e p
      VALID_SIGNING_PATHS ([], [], st)).1,
    (scanLocations (fun c q s => codesign_files_in ctx n c q s) e p
      VALID_SIGNING_PATHS ([], [], st)).2.1,
    (scanLocations (fun c q s => codesign_files_in ctx n c q s) e p
      VALID_SIGNING_PATHS ([], [], st)).2.2, rfl, ?_, ?_⟩
  · unfold codesign_files_in
    simp only [run]
    rw [if_neg (by simp [hok])]
    rfl
  · intro hro
    have hrun : codesign_files_in ctx (n + 1) e p st =
        signExecutables ctx
          (scanLocations (fun c q s => codesign_files_in ctx n c q s) e p
            VALID_SIGNING_PATHS ([], [], st)).2.1
          (signBundles (fun q c s => codesign_bundle ctx n c q s)
            (scanLocations (fun c q s => codesign_files_in ctx n c q s) e p
              VALID_SIGNING_PATHS ([], [], st)).1
            (scanLocations (fun c q s => codesign_files_in ctx n c q s) e p
              VALID_SIGNING_PATHS ([], [], st)).2.2) := by
      unfold codesign_files_in
      simp only [run]
      rw [if_neg (by simp [hok])]
      rfl
    rw [hrun] at hro ⊢
    have hst2 : (signBundles (fun q c s => codesign_bundle ctx n c q s)
        (scanLocations (fun c q s => codesign_files_in ctx n c q s) e p
          VALID_SIGNING_PATHS ([], [], st)).1
        (scanLocations (fun c q s => codesign_files_in ctx n c q s) e p
          VALID_SIGNING_PATHS ([], [], st)).2.2).outcome = Outcome.ok := by
      by_contra hne
      rw [signExecutables_stuck ctx _ _ hne] at hro
      exact hne hro
    obtain ⟨seg, hseg, hmem⟩ := signBundles_contains
      (fun q c s => codesign_bundle ctx n c q s)
      (fun q c s hs => run_stuck ctx n (Call.bundle c q) s hs)
      (fun q c s => (run_shape ctx n).2.2 c q s) _ _ hst2
    refine ⟨seg, ?_, hmem⟩
    rw [signExecutables_trace_ok ctx _ _ hro, hseg, List.append_assoc]

/-- C5 witness: `bundles_before_executables` on a concrete level holding a
framework bundle in `Frameworks` and an executable in `MacOS`. -/
theorem bundles_before_executables_witness :
    ∃ bs es stScan,
      scanLocations
          (fun c q s =>
            codesign_files_in
              { signer := fun _ _ => true, identity := "-", verbose := false } 4 c q s)
          (Entry.dir 0
            [("Frameworks", Entry.dir 0
              [("F.framework", Entry.dir 0 [("f", Entry.file true 0)])]),
             ("MacOS", Entry.dir 0 [("a", Entry.file true 0)])])
          ["A.app", "Contents"] VALID_SIGNING_PATHS
          ([], [], { trace := [], outcome := Outcome.ok }) = (bs, es, stScan) ∧
      codesign_files_in { signer := fun _ _ => true, identity := "-", verbose := false }
          5
          (Entry.dir 0
            [("Frameworks", Entry.dir 0
              [("F.framework", Entry.dir 0 [("f", Entry.file true 0)])]),
             ("MacOS", Entry.dir 0 [("a", Entry.file true 0)])])
          ["A.app", "Contents"] { trace := [], outcome := Outcome.ok } =
        signExecutables { signer := fun _ _ => true, identity := "-", verbose := false }
          es
          (signBundles
            (fun q c s =>
              codesign_bundle
                { signer := fun _ _ => true, identity := "-", verbose := false } 4 c q s)
            bs stScan) ∧
      ((codesign_files_in { signer := fun _ _ => true, identity := "-", verbose := false }
          5
          (Entry.dir 0
            [("Frameworks", Entry.dir 0
              [("F.framework", Entry.dir 0 [("f", Entry.file true 0)])]),
             ("MacOS", Entry.dir 0 [("a", Entry.file true 0)])])
          ["A.app", "Contents"] { trace := [], outcome := Outcome.ok }).outcome =
          Outcome.ok →
        ∃ B, (codesign_files_in
            { signer := fun _ _ => true, identity := "-", verbose := false } 5
            (Entry.dir 0
              [("Frameworks", Entry.dir 0
                [("F.framework", Entry.dir 0 [("f", Entry.file true 0)])]),
               ("MacOS", Entry.dir 0 [("a", Entry.file true 0)])])
            ["A.app", "Contents"] { trace := [], outcome := Outcome.ok }).trace =
            stScan.trace ++ B ++ es.map (fun q => (false, q)) ∧
          ∀ x ∈ bs, (true, x.1) ∈ B) :=
  bundles_before_executables _ 4 _ ["A.app", "Contents"]
    { trace := [], outcome := Outcome.ok } rfl

/-! ## C10: fallback recursion follows directory symlinks -/

/-- C10: a symlink child resolving to a directory is neither a bundle
candidate nor an executable candidate (both exclude symlinks), so inside
any recognized location other than the current-directory entry the scan
falls through to its directory check — which follows symlinks — and
recurses into the link via `codesign_files_in`.  (In this model symlink
targets are inlined, so resolution is acyclic by construction; this is the
no-directory-symlink-cycle precondition under which the fuelled traversal
is total.) -/
theorem symlink_dir_recursion (ctx : Ctx) (n : Nat) (nm : Name) (t : Entry)
    (loc : List Name) (locPath : Path) (rest : List (Name × Entry))
    (bs : List (Path × Entry)) (es : List Path) (st : SignState)
    (hdir : isdir (some (Entry.link (some t))) = true)
    (hloc : loc ≠ CURRENT_DIRECTORY_PATH)
    (hok : st.outcome = Outcome.ok) :
    bundle_candidate nm (some (Entry.link (some t))) = false ∧
    executable_candidate (some (Entry.link (some t))) = false ∧
    scanChildren (fun c q s => codesign_files_in ctx n c q s) loc locPath
        ((nm, Entry.link (some t)) :: rest) (bs, es, st) =
      scanChildren (fun c q s => codesign_files_in ctx n c q s) loc locPath rest
        (bs, es, codesign_files_in ctx n (Entry.link (some t)) (locPath ++ [nm]) st) := by
  refine ⟨rfl, rfl, ?_⟩
  simp [scanChildren, hok, hloc, hdir, bundle_candidate, executable_candidate, islink]

/-! ## C9: the traversal is structural, not signature-state-aware -/

theorem entry_ind (P : Entry → Prop)
    (hfile : ∀ ex sig, P (Entry.file ex sig))
    (hlinkN : P (Entry.link none))
    (hlinkS : ∀ t, P t → P (Entry.link (some t)))
    (hdir : ∀ sig ch, (∀ x ∈ ch, P x.2) → P (Entry.dir sig ch)) :
    ∀ e, P e := by
  have key : ∀ (n : Nat) (e : Entry), sizeOf e ≤ n → P e := by
    intro n
    induction n with
    | zero =>
      intro e h
      exfalso
      cases e <;> simp at h
    | succ n ih =>
      intro e h
      cases e with
      | file ex sig => exact hfile ex sig
      | link t =>
        cases t with
        | none => exact hlinkN
        | some u =>
          refine hlinkS u (ih u ?_)
          simp at h
          omega
      | dir sig ch =>
        refine hdir sig ch ?_
        intro x hx
        refine ih x.2 ?_
        have h1 : sizeOf x < sizeOf ch := List.sizeOf_lt_of_mem hx
        have h2 : sizeOf x.2 < sizeOf x := by
          obtain ⟨a, b⟩ := x
          simp
        have h3 : sizeOf ch < sizeOf (Entry.dir sig ch) := by simp
        omega
  exact fun e => key (sizeOf e) e (Nat.le_refl _)

theorem resolve_strip : ∀ e, resolve (stripSig e) = (resolve e).map stripSig := by
  intro e
  induction e using entry_ind with
  | hfile ex sig => rfl
  | hlinkN => rfl
  | hlinkS t ih => simpa [stripSig, resolve] using ih
  | hdir sig ch _ => rfl

theorem islink_strip (e : Entry) : islink (some (stripSig e)) = islink (some e) := by
  cases e with
  | file ex sig => rfl
  | dir s ch => rfl
  | link t => cases t <;> rfl

theorem isdir_strip (e : Entry) : isdir (some (stripSig e)) = isdir (some e) := by
  unfold isdir
  simp only
  rw [resolve_strip e]
  cases resolve e with
  | none => rfl
  | some x =>
    cases x with
    | file ex sig => rfl
    | dir s ch => rfl
    | link t => cases t <;> rfl

theorem pathExists_strip (e : Entry) :
    pathExists (some (stripSig e)) = pathExists (some e) := by
  unfold pathExists
  simp only
  rw [resolve_strip e]
  cases resolve e <;> rfl

theorem accessX_strip (e : Entry) : accessX (some (stripSig e)) = accessX (some e) := by
  unfold accessX
  simp only
  rw [resolve_strip e]
  cases resolve e with
  | none => rfl
  | some x =>
    cases x with
    | file ex sig => rfl
    | dir s ch => rfl
    | link t => cases t <;> rfl

theorem executable_candidate_strip (e : Entry) :
    executable_candidate (some (stripSig e)) = executable_candidate (some e) := by
  unfold executable_candidate
  rw [islink_strip e, isdir_strip e, accessX_strip e]

theorem bundle_candidate_strip (nm : Name) (e : Entry) :
    bundle_candidate nm (some (stripSig e)) = bundle_candidate nm (some e) := by
  unfold bundle_candidate
  rw [islink_strip e, isdir_strip e]

theorem findChild_strip (nm : Name) :
    ∀ ch, findChild nm (stripSigList ch) = (findChild nm ch).map stripSig := by
  intro ch
  induction ch with
  | nil => rfl
  | cons x rest ih =>
    obtain ⟨m, c⟩ := x
    by_cases hm : m = nm
    · simp [stripSigList, findChild, hm]
    · simp [stripSigList, findChild, hm, ih]

theorem lookup_strip : ∀ (q : List Name) (e : Entry),
    lookup (stripSig e) q = (lookup e q).map stripSig := by
  intro q
  induction q with
  | nil => intro e; rfl
  | cons nm rest ih =>
    intro e
    simp only [lookup]
    rw [resolve_strip e]
    cases hr : resolve e with
    | none => rfl
    | some x =>
      cases x with
      | file ex sig => rfl
      | dir s ch =>
        simp only [Option.map_some', stripSig]
        by_cases hnm : nm = "."
        · rw [if_pos hnm, if_pos hnm]
          have := ih (Entry.dir s ch)
          simpa [stripSig] using this
        · rw [if_neg hnm, if_neg hnm]
          rw [findChild_strip nm ch]
          cases findChild nm ch with
          | none => rfl
          | some c => exact ih c
      | link t => cases t <;> rfl

theorem entryAt_strip (e : Entry) (q : List Name) :
    entryAt (stripSig e) q = (entryAt e q).map stripSig := by
  unfold entryAt
  rw [lookup_strip q e]
  cases lookup e q with
  | none => rfl
  | some x =>
    simp only [Option.map_some', Option.some_bind]
    exact resolve_strip x

theorem listdir_strip (e : Entry) :
    listdir (stripSig e) = (listdir e).map stripSigList := by
  unfold listdir
  rw [resolve_strip e]
  cases resolve e with
  | none => rfl
  | some x =>
    cases x with
    | file ex sig => rfl
    | dir s ch => simp [stripSig]
    | link t => cases t <;> rfl

theorem versionsLoop_strip (recurse : Entry → Path → SignState → SignState)
    (hrec : ∀ c q s, recurse (stripSig c) q s = recurse c q s) (p : Path) :
    ∀ (ch : List (Name × Entry)) (st : SignState),
      versionsLoop recurse p (stripSigList ch) st = versionsLoop recurse p ch st := by
  intro ch
  induction ch with
  | nil => intro st; rfl
  | cons x rest ih =>
    intro st
    obtain ⟨nm, c⟩ := x
    simp only [stripSigList, versionsLoop]
    rw [islink_strip c, hrec c (p ++ [nm]) st]
    by_cases hok : st.outcome = Outcome.ok
    · have hg : ¬st.outcome ≠ Outcome.ok := by simp [hok]
      rw [if_neg hg, if_neg hg]
      cases islink (some c) <;> simp only [if_true, if_false, Bool.false_eq_true] <;>
        exact ih _
    · rw [if_pos hok, if_pos hok]

theorem signBundles_strip (signB : Path → Entry → SignState → SignState)
    (hB : ∀ q c s, signB q (stripSig c) s = signB q c s) :
    ∀ (bs : List (Path × Entry)) (st : SignState),
      signBundles signB (stripSigBundles bs) st = signBundles signB bs st := by
  intro bs
  induction bs with
  | nil => intro st; rfl
  | cons x rest ih =>
    intro st
    obtain ⟨q, c⟩ := x
    simp only [stripSigBundles, List.map_cons, signBundles]
    rw [hB q c st]
    exact ih _

theorem scanChildren_strip (recurse : Entry → Path → SignState → SignState)
    (hrec : ∀ c q s, recurse (stripSig c) q s = recurse c q s)
    (loc : List Name) (locPath : Path) :
    ∀ (ch : List (Name × Entry)) (bs : List (Path × Entry)) (es : List Path)
      (st : SignState),
      scanChildren recurse loc locPath (stripSigList ch) (stripSigBundles bs, es, st) =
        (stripSigBundles (scanChildren recurse loc locPath ch (bs, es, st)).1,
         (scanChildren recurse loc locPath ch (bs, es, st)).2.1,
         (scanChildren recurse loc locPath ch (bs, es, st)).2.2) := by
  intro ch
  induction ch with
  | nil => intro bs es st; rfl
  | cons x rest ih =>
    intro bs es st
    obtain ⟨nm, c⟩ := x
    simp only [stripSigList, scanChildren]
    rw [bundle_candidate_strip nm c, executable_candidate_strip c, isdir_strip c,
      hrec c (locPath ++ [nm]) st]
    by_cases hok : st.outcome = Outcome.ok
    · have hg : ¬st.outcome ≠ Outcome.ok := by simp [hok]
      rw [if_neg hg, if_neg hg]
      by_cases hb : bundle_candidate nm (some c) = true
      · rw [if_pos hb, if_pos hb]
        have hmap : stripSigBundles bs ++ [(locPath ++ [nm], stripSig c)] =
            stripSigBundles (bs ++ [(locPath ++ [nm], c)]) := by
          simp [stripSigBundles]
        rw [hmap]
        exact ih _ es st
      · rw [if_neg hb, if_neg hb]
        by_cases he : executable_candidate (some c) = true
        · rw [if_pos he, if_pos he]
          exact ih bs _ st
        · rw [if_neg he, if_neg he]
          by_cases hd : (loc ≠ CURRENT_DIRECTORY_PATH ∧ isdir (some c) = true)
          · rw [if_pos hd, if_pos hd]
            exact ih bs es _
          · rw [if_neg hd, if_neg hd]
            exact ih bs es st
    · rw [if_pos hok, if_pos hok]

theorem scanLocations_strip (recurse : Entry → Path → SignState → SignState)
    (hrec : ∀ c q s, recurse (stripSig c) q s = recurse c q s) (e : Entry) (p : Path) :
    ∀ (locs : List (List Name)) (bs : List (Path × Entry)) (es : List Path)
      (st : SignState),
      scanLocations recurse (stripSig e) p locs (stripSigBundles bs, es, st) =
        (stripSigBundles (scanLocations recurse e p locs (bs, es, st)).1,
         (scanLocations recurse e p locs (bs, es, st)).2.1,
         (scanLocations recurse e p locs (bs, es, st)).2.2) := by
  intro locs
  induction locs generalizing e with
  | nil => intro bs es st; rfl
  | cons loc rest ih =>
    intro bs es st
    simp only [scanLocations]
    by_cases hok : st.outcome = Outcome.ok
    · rw [if_neg (by simp [hok]), if_neg (by simp [hok])]
      rw [entryAt_strip e loc]
      cases hE : entryAt e loc with
      | none =>
        exact ih e bs es st
      | some x =>
        cases x with
        | file ex sig =>
          exact ih e bs es { st with outcome := Outcome.crashed }
        | dir s ch =>
          simp only [Option.map_some', stripSig]
          rcases hacc : scanChildren recurse loc (joinRel p loc) ch (bs, es, st) with
            ⟨bs', es', st'⟩
          have hsc := scanChildren_strip recurse hrec loc (joinRel p loc) ch bs es st
          rw [hacc] at hsc
          rw [hsc]
          exact ih e bs' es' st'
        | link t =>
          cases t <;> exact ih e bs es { st with outcome := Outcome.crashed }
    · rw [if_pos hok, if_pos hok]

theorem run_strip (ctx : Ctx) :
    ∀ n : Nat,
      (∀ e p st, run ctx n (Call.filesIn (stripSig e) p) st =
        run ctx n (Call.filesIn e p) st) ∧
      (∀ e p st, run ctx n (Call.versions (stripSig e) p) st =
        run ctx n (Call.versions e p) st) ∧
      (∀ e p st, run ctx n (Call.bundle (stripSig e) p) st =
        run ctx n (Call.bundle e p) st) := by
  intro n
  induction n with
  | zero => exact ⟨fun _ _ _ => rfl, fun _ _ _ => rfl, fun _ _ _ => rfl⟩
  | succ n ih =>
    obtain ⟨ihF, ihV, ihB⟩ := ih
    refine ⟨?_, ?_, ?_⟩
    · intro e p st
      by_cases hok : st.outcome = Outcome.ok
      · simp only [run]
        rw [if_neg (by simp [hok]), if_neg (by simp [hok])]
        have hsl := scanLocations_strip (fun c q s => run ctx n (Call.filesIn c q) s)
          (fun c q s => ihF c q s) e p VALID_SIGNING_PATHS [] [] st
        have hnil : stripSigBundles [] = [] := rfl
        rw [hnil] at hsl
        rw [hsl]
        rw [signBundles_strip (fun q c s => run ctx n (Call.bundle c q) s)
          (fun q c s => ihB c q s)]
      · rw [run_stuck ctx (n + 1) _ st hok, run_stuck ctx (n + 1) _ st hok]
    · intro e p st
      by_cases hok : st.outcome = Outcome.ok
      · simp only [run]
        rw [if_neg (by simp [hok]), if_neg (by simp [hok])]
        rw [listdir_strip e]
        cases listdir e with
        | none => rfl
        | some ch =>
          simp only [Option.map_some']
          exact versionsLoop_strip _ (fun c q s => ihF c q s) p ch st
      · rw [run_stuck ctx (n + 1) _ st hok, run_stuck ctx (n + 1) _ st hok]
    · intro e p st
      by_cases hok : st.outcome = Outcome.ok
      · cases hC : entryAt e ["Contents"] with
        | some ce =>
          have hC' : entryAt (stripSig e) ["Contents"] = some (stripSig ce) := by
            rw [entryAt_strip e, hC]
            rfl
          cases hV : entryAt ce ["Versions"] with
          | some ve =>
            have hV' : entryAt (stripSig ce) ["Versions"] = some (stripSig ve) := by
              rw [entryAt_strip ce, hV]
              rfl
            rw [run_bundle_eq_CV ctx n (stripSig e) p st (stripSig ce) (stripSig ve)
              hok hC' hV']
            rw [run_bundle_eq_CV ctx n e p st ce ve hok hC hV]
            rw [ihV ve (p ++ ["Contents", "Versions"]) st]
            rw [ihF ce (p ++ ["Contents"]) _]
          | none =>
            have hV' : entryAt (stripSig ce) ["Versions"] = none := by
              rw [entryAt_strip ce, hV]
              rfl
            rw [run_bundle_eq_C ctx n (stripSig e) p st (stripSig ce) hok hC' hV']
            rw [run_bundle_eq_C ctx n e p st ce hok hC hV]
            rw [ihF ce (p ++ ["Contents"]) st]
        | none =>
          have hC' : entryAt (stripSig e) ["Contents"] = none := by
            rw [entryAt_strip e, hC]
            rfl
          cases hV : entryAt e ["Versions"] with
          | some ve =>
            have hV' : entryAt (stripSig e) ["Versions"] = some (stripSig ve) := by
              rw [entryAt_strip e, hV]
              rfl
            rw [run_bundle_eq_V ctx n (stripSig e) p st (stripSig ve) hok hC' hV']
            rw [run_bundle_eq_V ctx n e p st ve hok hC hV]
            rw [ihV ve (p ++ ["Versions"]) st]
          | none =>
            have hV' : entryAt (stripSig e) ["Versions"] = none := by
              rw [entryAt_strip e, hV]
              rfl
            rw [run_bundle_eq_none ctx n (stripSig e) p st hok hC' hV']
            rw [run_bundle_eq_none ctx n e p st hok hC hV]
            rw [ihF e p st]
      · rw [run_stuck ctx (n + 1) _ st hok, run_stuck ctx (n + 1) _ st hok]

theorem deepsign_main_strip (ctx : Ctx) (fuel : Nat) (rootPath : Path)
    (oe : Option Entry) :
    deepsign_main ctx fuel rootPath (oe.map stripSig) =
      deepsign_main ctx fuel rootPath oe := by
  cases oe with
  | none => rfl
  | some e =>
    show deepsign_main ctx fuel rootPath (some (stripSig e)) =
      deepsign_main ctx fuel rootPath (some e)
    unfold deepsign_main
    rw [pathExists_strip e, executable_candidate_strip e,
      bundle_candidate_strip (rootPath.getLastD "") e]
    by_cases h1 : pathExists (some e) = false
    · rw [if_pos h1, if_pos h1]
    · rw [if_neg h1, if_neg h1]
      by_cases h2 : executable_candidate (some e) = true
      · rw [if_pos h2, if_pos h2]
      · rw [if_neg h2, if_neg h2]
        by_cases h3 : bundle_candidate (rootPath.getLastD "") (some e) = true
        · rw [if_pos h3, if_pos h3]
          exact (run_strip ctx fuel).2.2 e rootPath _
        · rw [if_neg h3, if_neg h3]

/-- C9: the full signing operation is a deterministic function of the
filesystem structure alone and is not influenced by existing signature
state: two runs with the same configuration (signer, identity, verbosity)
on filesystem states that agree after erasing the ghost signature
annotations — in particular a re-run on an already fully-signed bundle —
produce identical results, and in particular the identical sequence of
Signer invocations. -/
theorem traversal_ignores_signature_state (ctx : Ctx) (fuel : Nat) (rootPath : Path)
    (a b : Option Entry) (h : a.map stripSig = b.map stripSig) :
    deepsign_main ctx fuel rootPath a = deepsign_main ctx fuel rootPath b := by
  rw [← deepsign_main_strip ctx fuel rootPath a, ← deepsign_main_strip ctx fuel rootPath b, h]

/-- C9 witness: `traversal_ignores_signature_state` applied to a concrete
bundle and the same bundle re-annotated with different (post-signing)
signature state. -/
theorem traversal_ignores_signature_state_witness :
    deepsign_main { signer := fun _ _ => true, identity := "-", verbose := false } 5
        ["A.app"]
        (some (Entry.dir 0 [("Contents", Entry.dir 0
          [("MacOS", Entry.dir 0 [("a", Entry.file true 0)])])])) =
      deepsign_main { signer := fun _ _ => true, identity := "-", verbose := false } 5
        ["A.app"]
        (some (Entry.dir 7 [("Contents", Entry.dir 3
          [("MacOS", Entry.dir 1 [("a", Entry.file true 9)])])])) :=
  traversal_ignores_signature_state _ 5 ["A.app"] _ _ rfl

/-- C10 witness: `symlink_dir_recursion` at a concrete symlink to a
directory containing an executable, inside a `PlugIns` location. -/
theorem symlink_dir_recursion_witness :
    scanChildren
        (fun c q s =>
          codesign_files_in
            { signer := fun _ _ => true, identity := "-", verbose := false } 3 c q s)
        ["PlugIns"] ["A.app", "PlugIns"]
        [("sub", Entry.link (some (Entry.dir 0 [("x", Entry.file true 0)])))]
        ([], [], { trace := [], outcome := Outcome.ok }) =
      scanChildren
        (fun c q s =>
          codesign_files_in
            { signer := fun _ _ => true, identity := "-", verbose := false } 3 c q s)
        ["PlugIns"] ["A.app", "PlugIns"] []
        ([], [],
          codesign_files_in
            { signer := fun _ _ => true, identity := "-", verbose := false } 3
            (Entry.link (some (Entry.dir 0 [("x", Entry.file true 0)])))
            (["A.app", "PlugIns"] ++ ["sub"]) { trace := [], outcome := Outcome.ok }) :=
  (symlink_dir_recursion _ 3 "sub" (Entry.dir 0 [("x", Entry.file true 0)])
    ["PlugIns"] ["A.app", "PlugIns"] [] [] [] { trace := [], outcome := Outcome.ok }
    rfl (by decide) rfl).2.2

end Deepsign
